import Mathlib

/-!
# Jeskola Ninja delay: a shallow embedding of `Ninja.cpp`

Samples (`float`) and the `double` intermediates of the inner loops are modelled
by exact rationals, so every `(float)` / `(double)` conversion is the identity.

The `double` expressions of the control rate that end in an `(int)` conversion,
`SamplesPerSec * (ms / 1000.0)` in `TickTrack` and `AttributesChanged`, are rounded
operation by operation as IEEE 754 binary64 rounds them (`fl`: 53-bit significand,
round to nearest, ties to even; the exponent range is not bounded, the values
here lying between `2^-10` and `2^48`). The gains `(feedback - 64) * (1.0 / 64.0)`
and `wetout * (1.0 / 128.0)` are dyadic and exact in binary floating point.

A `float *` is modelled as a total map from element index to sample together
with an element offset; distinct pointer arguments are distinct maps, i.e. the
input block, the output block and a track's delay buffer never alias (in `Work`
they are the host's aux buffer, the host's sample block and a `new float[]`).

An `int` is a mathematical integer. The products that `TickTrack` forms from
host values are reduced to 32 bits (`wrap32`); the sums and differences of
`WorkTrack` and `Work` stay within a block or a decay time and are exact.
-/

namespace Ninja

/-- A region of `float` memory, addressed by element index. -/
abbrev Mem := ℕ → ℚ

/-- The store `p[i] = v`. -/
def poke (p : Mem) (i : ℕ) (v : ℚ) : Mem := fun j => if j = i then v else p j

/-- An all-zero region (silence). -/
def zeroMem : Mem := fun _ => 0

/-- The state `CBWState` of dsplib's second-order section, as the inner loops use
it: coefficients `a[0..4]`, input history `i[0..1]`, output history `o[0..1]`. -/
structure CBWState where
  a0 : ℚ
  a1 : ℚ
  a2 : ℚ
  a3 : ℚ
  a4 : ℚ
  i0 : ℚ
  i1 : ℚ
  o0 : ℚ
  o1 : ℚ
deriving DecidableEq

/-- The filter output
`o = s.a[0]*delay + s.a[1]*s.i[0] + s.a[2]*s.i[1] - s.a[3]*s.o[0] - s.a[4]*s.o[1]`,
the line every inner loop starts with. -/
def bwOut (s : CBWState) (delay : ℚ) : ℚ :=
  s.a0 * delay + s.a1 * s.i0 + s.a2 * s.i1 - s.a3 * s.o0 - s.a4 * s.o1

/-- The history shift `s.o[1] = s.o[0]; s.o[0] = o; s.i[1] = s.i[0]; s.i[0] = delay`
that follows it in every inner loop. -/
def bwShift (s : CBWState) (delay o : ℚ) : CBWState :=
  { s with o1 := s.o0, o0 := o, i1 := s.i0, i0 := delay }

/-! ## The inner loops

Each is a `do { ... } while (--c)`: the body runs once before the first test.
Every call site passes `c ≥ 1`; for `c = 0` the C loop would decrement past zero
and run off the buffers, which is outside the model (the model stops after the
first pass there). Pointer arguments are (region, offset) pairs. -/

/-- Function `DoWork`: input, output and feedback all present. Returns the output region,
the delay buffer and the filter state. -/
def DoWork (pin : Mem) (ip : ℕ) (pout : Mem) (io : ℕ) (pbuf : Mem) (ib : ℕ)
    (c : ℕ) (wetout feedback : ℚ) (s : CBWState) : Mem × Mem × CBWState :=
  let delay := pbuf ib
  let o := bwOut s delay
  let s1 := bwShift s delay o
  let pbuf1 := poke pbuf ib (feedback * o + pin ip)
  let pout1 := poke pout io (pout io + o * wetout)
  match c with
  | 0 => (pout1, pbuf1, s1)
  | 1 => (pout1, pbuf1, s1)
  | k + 2 => DoWork pin (ip + 1) pout1 (io + 1) pbuf1 (ib + 1) (k + 1) wetout feedback s1

/-- Function `DoWorkNoFB`: input and output, feedback known to be zero. -/
def DoWorkNoFB (pin : Mem) (ip : ℕ) (pout : Mem) (io : ℕ) (pbuf : Mem) (ib : ℕ)
    (c : ℕ) (wetout : ℚ) (s : CBWState) : Mem × Mem × CBWState :=
  let delay := pbuf ib
  let o := bwOut s delay
  let s1 := bwShift s delay o
  let pbuf1 := poke pbuf ib (pin ip)
  let pout1 := poke pout io (pout io + o * wetout)
  match c with
  | 0 => (pout1, pbuf1, s1)
  | 1 => (pout1, pbuf1, s1)
  | k + 2 => DoWorkNoFB pin (ip + 1) pout1 (io + 1) pbuf1 (ib + 1) (k + 1) wetout s1

/-- Function `DoWorkNoInput`: no fresh input, output and feedback present. -/
def DoWorkNoInput (pout : Mem) (io : ℕ) (pbuf : Mem) (ib : ℕ)
    (c : ℕ) (wetout feedback : ℚ) (s : CBWState) : Mem × Mem × CBWState :=
  let delay := pbuf ib
  let o := bwOut s delay
  let s1 := bwShift s delay o
  let pbuf1 := poke pbuf ib (feedback * o)
  let pout1 := poke pout io (pout io + o * wetout)
  match c with
  | 0 => (pout1, pbuf1, s1)
  | 1 => (pout1, pbuf1, s1)
  | k + 2 => DoWorkNoInput pout1 (io + 1) pbuf1 (ib + 1) (k + 1) wetout feedback s1

/-- Function `DoWorkNoInputNoFB`: no fresh input, no feedback, output present. -/
def DoWorkNoInputNoFB (pout : Mem) (io : ℕ) (pbuf : Mem) (ib : ℕ)
    (c : ℕ) (wetout : ℚ) (s : CBWState) : Mem × Mem × CBWState :=
  let delay := pbuf ib
  let o := bwOut s delay
  let s1 := bwShift s delay o
  let pbuf1 := poke pbuf ib 0
  let pout1 := poke pout io (pout io + o * wetout)
  match c with
  | 0 => (pout1, pbuf1, s1)
  | 1 => (pout1, pbuf1, s1)
  | k + 2 => DoWorkNoInputNoFB pout1 (io + 1) pbuf1 (ib + 1) (k + 1) wetout s1

/-- Function `DoWorkNoInputNoOutput`: feedback only. Returns the delay buffer and the
filter state. -/
def DoWorkNoInputNoOutput (pbuf : Mem) (ib : ℕ) (c : ℕ) (feedback : ℚ) (s : CBWState) :
    Mem × CBWState :=
  let delay := pbuf ib
  let o := bwOut s delay
  let s1 := bwShift s delay o
  let pbuf1 := poke pbuf ib (o * feedback)
  match c with
  | 0 => (pbuf1, s1)
  | 1 => (pbuf1, s1)
  | k + 2 => DoWorkNoInputNoOutput pbuf1 (ib + 1) (k + 1) feedback s1

/-- Function `DoWorkNoOutput`: input and feedback, output not wanted. -/
def DoWorkNoOutput (pin : Mem) (ip : ℕ) (pbuf : Mem) (ib : ℕ) (c : ℕ) (feedback : ℚ)
    (s : CBWState) : Mem × CBWState :=
  let delay := pbuf ib
  let o := bwOut s delay
  let s1 := bwShift s delay o
  let dry := pin ip
  let pbuf1 := poke pbuf ib (feedback * o + dry)
  match c with
  | 0 => (pbuf1, s1)
  | 1 => (pbuf1, s1)
  | k + 2 => DoWorkNoOutput pin (ip + 1) pbuf1 (ib + 1) (k + 1) feedback s1

/-- Function `DoWorkNoOutputNoFB`: `memcpy(pbuf, psamples, c*4)`, the first `c` floats of
the input copied over the buffer; the filter is not involved. -/
def DoWorkNoOutputNoFB (psamples : Mem) (ip : ℕ) (pbuf : Mem) (ib : ℕ) (c : ℕ) : Mem :=
  fun j => if ib ≤ j ∧ j < ib + c then psamples (ip + (j - ib)) else pbuf j

/-! ## Host declarations -/

/-- Modelled from the spec: the mode flag set of `MachineInterface.h` (not among
the sources), "has real input" and "output wanted" bits; no bit set. -/
def WM_NOIO : ℕ := 0

/-- Modelled from the spec: the "input present" bit of the mode flag set. -/
def WM_READ : ℕ := 1

/-- Modelled from the spec: the "output wanted" bit of the mode flag set. -/
def WM_WRITE : ℕ := 2

/-- Modelled from the spec: both bits of the mode flag set. -/
def WM_READWRITE : ℕ := 3

/-- Modelled from the spec: the size of "one full processing block", the constant
`MAX_BUFFER_LENGTH` of `MachineInterface.h` (not among the sources); the statements
below hold whatever its value. -/
def MAX_BUFFER_LENGTH : ℤ := 256

/-- The fields of `CMachineParameter` that the code reads. -/
structure CMachineParameter where
  MinValue : ℤ
  MaxValue : ℤ
  NoValue : ℤ
  DefValue : ℤ
deriving DecidableEq

def paraLength : CMachineParameter := ⟨1, 32768, 65535, 3⟩
def paraUnit : CMachineParameter := ⟨0, 3, 0xff, 0⟩
def paraFeedback : CMachineParameter := ⟨0, 128, 255, 0x70⟩
def paraFilterType : CMachineParameter := ⟨0, 3, 255, 1⟩
def paraFilterCutoff : CMachineParameter := ⟨10, 20000, 255, 550⟩
def paraFilterBandwidth : CMachineParameter := ⟨1, 10000, 255, 100⟩
def paraWetOut : CMachineParameter := ⟨0, 128, 0xfe, 0x60⟩

def UNIT_TICK : ℤ := 0
def UNIT_MS : ℤ := 1
def UNIT_SAMPLE : ℤ := 2
def UNIT_256 : ℤ := 3

def FILTER_LP : ℤ := 0
def FILTER_HP : ℤ := 1
def FILTER_BP : ℤ := 2
def FILTER_BR : ℤ := 3

/-- One track's parameter snapshot `tvals` (`word` and `byte` fields). -/
structure tvals where
  length : ℕ
  unit : ℕ
  feedback : ℕ
  filtertype : ℕ
  filtercutoff : ℕ
  filterbw : ℕ
  wetout : ℕ
deriving DecidableEq

/-- The two fields of the host's `CMasterInfo` that the code reads. -/
structure CMasterInfo where
  SamplesPerSec : ℤ
  SamplesPerTick : ℤ
deriving DecidableEq

/-- The coefficient derivations of dsplib (`DSP_BW_InitLowpass`, ...), external to
the sources: taken as parameters, from the state and the cutoff (and bandwidth)
to the state with the new coefficients. -/
structure DspLib where
  InitLowpass : CBWState → ℤ → CBWState
  InitHighpass : CBWState → ℤ → CBWState
  InitBandpass : CBWState → ℤ → ℤ → CBWState
  InitBandreject : CBWState → ℤ → ℤ → CBWState

/-- The class `CTrack`. -/
structure CTrack where
  Filter : CBWState
  Buffer : Mem
  Length : ℤ
  Pos : ℤ
  Feedback : ℚ
  WetOut : ℚ
  Unit : ℤ
  FilterType : ℤ
  FilterCutoff : ℤ
  FilterBandwidth : ℤ

/-- The data members of the class `mi`; `Tracks` is the array `Tracks[MAX_TAPS]`. -/
structure mi where
  MaxDelay : ℤ
  IdleCount : ℤ
  DelayTime : ℤ
  IdleMode : Bool
  DryThru : Bool
  numTracks : ℕ
  Tracks : List CTrack

/-! ## Machine arithmetic -/

/-- The value of a 32-bit two's complement `int` holding the mathematical
integer `x` (reduction modulo `2^32` into `[-2^31, 2^31)`). -/
def wrap32 (x : ℤ) : ℤ := (x + 2147483648) % 4294967296 - 2147483648

/-- The conversion `(int)d` of a `double`: truncation toward zero. A value outside
the range of `int` is undefined in C; the x86 conversion instruction gives
`INT_MIN` there, and so does this definition. -/
def cvtInt (d : ℚ) : ℤ :=
  let t := Int.tdiv d.num d.den
  if -2147483648 ≤ t ∧ t < 2147483648 then t else -2147483648

/-- Rounding of a rational to the nearest integer, a tie going to the even one. -/
def rne (x : ℚ) : ℤ :=
  if x - (⌊x⌋ : ℚ) < 1 / 2 then ⌊x⌋
  else if 1 / 2 < x - (⌊x⌋ : ℚ) then ⌊x⌋ + 1
  else if ⌊x⌋ % 2 = 0 then ⌊x⌋ else ⌊x⌋ + 1

/-- The unit in the last place of a `double` of the magnitude of `x ≠ 0`:
`2 ^ (e - 52)` where `2 ^ e ≤ |x| < 2 ^ (e + 1)`. -/
def ulp (x : ℚ) : ℚ := (2 : ℚ) ^ (Int.log 2 |x| - 52)

/-- The `double` nearest to the real number `x` (IEEE 754 binary64, round to
nearest, ties to even; exponent range not bounded). -/
def fl (x : ℚ) : ℚ :=
  if x = 0 then 0
  else if 0 < x then (rne (x / ulp x) : ℚ) * ulp x
  else -((rne (-x / ulp x) : ℚ) * ulp x)

/-- The product `a * b` of two `double`s. -/
def dmul (a b : ℚ) : ℚ := fl (a * b)

/-- The quotient `a / b` of two `double`s. -/
def ddiv (a b : ℚ) : ℚ := fl (a / b)

/-! ## Control rate -/

/-- Function `mi::SetFilter`. -/
def SetFilter (dsp : DspLib) (t : CTrack) : CTrack :=
  if t.FilterType = FILTER_LP then { t with Filter := dsp.InitLowpass t.Filter t.FilterCutoff }
  else if t.FilterType = FILTER_HP then
    { t with Filter := dsp.InitHighpass t.Filter t.FilterCutoff }
  else if t.FilterType = FILTER_BP then
    { t with Filter := dsp.InitBandpass t.Filter t.FilterCutoff t.FilterBandwidth }
  else if t.FilterType = FILTER_BR then
    { t with Filter := dsp.InitBandreject t.Filter t.FilterCutoff t.FilterBandwidth }
  else t

/-- Function `mi::InitTrack` on the track `Tracks[i]`: a fresh zero-filled buffer of
`MaxDelay` floats, `Pos = 0`, `Length` capped at `MaxDelay`. -/
def InitTrack (MaxDelay : ℤ) (t : CTrack) : CTrack :=
  let t1 := { t with Buffer := zeroMem }
  let t2 := { t1 with Pos := 0 }
  if t2.Length > MaxDelay then { t2 with Length := MaxDelay } else t2

/-- The `switch (pt->Unit)` of `TickTrack`: the new `Length` from the raw length
value. `int` products are 32-bit; `>> 8` is the arithmetic shift, i.e. floor
division by 256; the millisecond case is the `double` expression
`SamplesPerSec * (length / 1000.0)`, each operation rounded. -/
def lengthFromUnit (info : CMasterInfo) (pt : CTrack) (length : ℕ) : CTrack :=
  if pt.Unit = UNIT_MS then
    let t1 := { pt with
      Length := cvtInt (dmul (info.SamplesPerSec : ℚ) (ddiv (length : ℚ) 1000)) }
    if t1.Length < 1 then { t1 with Length := 1 } else t1
  else if pt.Unit = UNIT_SAMPLE then
    { pt with Length := (length : ℤ) }
  else if pt.Unit = UNIT_TICK then
    { pt with Length := wrap32 (info.SamplesPerTick * (length : ℤ)) }
  else if pt.Unit = UNIT_256 then
    let t1 := { pt with Length := wrap32 (info.SamplesPerTick * (length : ℤ)) / 256 }
    if t1.Length < 1 then { t1 with Length := 1 } else t1
  else pt

/-- The filter part of `mi::TickTrack`: the three filter-shape fields, then
`if (recalcfilter) SetFilter(*pt)`. -/
def tickFilter (dsp : DspLib) (pt : CTrack) (ptval : tvals) : CTrack :=
  let recalc0 := false
  let r1 : CTrack × Bool :=
    if (ptval.filtertype : ℤ) ≠ paraFilterType.NoValue then
      ({ pt with FilterType := (ptval.filtertype : ℤ) }, true)
    else (pt, recalc0)
  let r2 : CTrack × Bool :=
    if (ptval.filtercutoff : ℤ) ≠ paraFilterCutoff.NoValue then
      ({ r1.1 with FilterCutoff := (ptval.filtercutoff : ℤ) }, true)
    else r1
  let r3 : CTrack × Bool :=
    if (ptval.filterbw : ℤ) ≠ paraFilterBandwidth.NoValue then
      ({ r2.1 with FilterBandwidth := (ptval.filterbw : ℤ) }, true)
    else r2
  if r3.2 then SetFilter dsp r3.1 else r3.1

/-- The length part of `mi::TickTrack`: the unit, the length under the unit now
in effect, the cap at `MaxDelay`, the cursor reset. -/
def tickLength (info : CMasterInfo) (MaxDelay : ℤ) (pt : CTrack) (ptval : tvals) : CTrack :=
  let t5 : CTrack :=
    if (ptval.unit : ℤ) ≠ paraUnit.NoValue then { pt with Unit := (ptval.unit : ℤ) } else pt
  let t6 : CTrack :=
    if (ptval.length : ℤ) ≠ paraLength.NoValue then lengthFromUnit info t5 ptval.length else t5
  let t7 : CTrack := if t6.Length > MaxDelay then { t6 with Length := MaxDelay } else t6
  if t7.Pos ≥ t7.Length then { t7 with Pos := 0 } else t7

/-- The gain part of `mi::TickTrack`: feedback, then wet out. -/
def tickGains (pt : CTrack) (ptval : tvals) : CTrack :=
  let t9 : CTrack :=
    if (ptval.feedback : ℤ) ≠ paraFeedback.NoValue then
      { pt with Feedback := (((ptval.feedback : ℤ) - 64 : ℤ) : ℚ) * (1 / 64) }
    else pt
  if (ptval.wetout : ℤ) ≠ paraWetOut.NoValue then
    { t9 with WetOut := (ptval.wetout : ℚ) * (1 / 128) }
  else t9

/-- Function `mi::TickTrack`: its three parts in the order of the source. -/
def TickTrack (dsp : DspLib) (info : CMasterInfo) (MaxDelay : ℤ) (pt : CTrack)
    (ptval : tvals) : CTrack :=
  tickGains (tickLength info MaxDelay (tickFilter dsp pt ptval) ptval) ptval

/-- The unit in effect for the length of a tick: the tick's unit when it carries
one, the track's otherwise. -/
def unitInEffect (pt : CTrack) (ptval : tvals) : ℤ :=
  if (ptval.unit : ℤ) ≠ paraUnit.NoValue then (ptval.unit : ℤ) else pt.Unit

/-- The value `lengthFromUnit` gives `Length` under the unit `unit`, `old` being
the previous `Length`. -/
def convLength (info : CMasterInfo) (unit old : ℤ) (l : ℕ) : ℤ :=
  if unit = UNIT_MS then max 1 (cvtInt (dmul (info.SamplesPerSec : ℚ) (ddiv (l : ℚ) 1000)))
  else if unit = UNIT_SAMPLE then (l : ℤ)
  else if unit = UNIT_TICK then wrap32 (info.SamplesPerTick * (l : ℤ))
  else if unit = UNIT_256 then max 1 (wrap32 (info.SamplesPerTick * (l : ℤ)) / 256)
  else old

/-- A `DspLib` that leaves the filter state as it is, for concrete runs. -/
def idDsp : DspLib := ⟨fun s _ => s, fun s _ => s, fun s _ _ => s, fun s _ _ => s⟩

/-- A track as `mi::Init` leaves the second and later ones at
`SamplesPerTick = 512` (filter coefficients aside), for concrete runs. -/
def track0 : CTrack :=
  { Filter := ⟨1, 0, 0, 0, 0, 0, 0, 0, 0⟩, Buffer := zeroMem, Length := 1536, Pos := 0,
    Feedback := 3 / 10, WetOut := 0, Unit := UNIT_TICK, FilterType := 1,
    FilterCutoff := 1000, FilterBandwidth := 1000 }

/-- A pure delay of 3 samples: no feedback, unit wet gain, pass-through filter. -/
def delay3 : CTrack :=
  { track0 with Length := 3, Feedback := 0, WetOut := 1, Unit := UNIT_SAMPLE }

/-- The ramp 1, 2, 3, ... as a stream of samples. -/
def ramp : Mem := fun k => (k : ℚ) + 1

/-- An active engine with the single track `track0`, for concrete runs. -/
def engine0 : mi :=
  { MaxDelay := 44100, IdleCount := 0, DelayTime := 1536, IdleMode := false,
    DryThru := true, numTracks := 1, Tracks := [track0] }

/-- The same engine, idle. -/
def idleEngine : mi := { engine0 with IdleMode := true }

/-- A parameter snapshot with every field unset. -/
def noVals : tvals := ⟨65535, 0xff, 255, 255, 255, 255, 0xfe⟩

/-- A snapshot that carries the length value 1 and nothing else. -/
def oneTick : tvals := { noVals with length := 1 }

/-- A snapshot that carries the length value 13000 and nothing else. -/
def longTick : tvals := { noVals with length := 13000 }

/-- A host at 44.1 kHz with 512 samples per tick, the value of the
specification's unit-conversion test. -/
def host512 : CMasterInfo := ⟨44100, 512⟩

/-- The host at 44.1 kHz, 16 BPM and 1 tick per beat: `44100 * 60 / 16 = 165375`
samples per tick. -/
def hostSlow : CMasterInfo := ⟨44100, 165375⟩

/-! ## Audio rate -/

/-- The mode dispatch inside `WorkTrack`, for one sub-range of `count` samples
starting at `pin + ip`, `pout + io` and `pt->Buffer + pt->Pos` (a cursor that is
not negative: a negative one points before the buffer, outside the model).
Returns the track and the output region. -/
def dispatch (pt : CTrack) (pin : Mem) (ip : ℕ) (pout : Mem) (io : ℕ) (count : ℕ)
    (mode : ℕ) : CTrack × Mem :=
  if mode = WM_NOIO then
    if pt.Feedback ≠ 0 then
      let r := DoWorkNoInputNoOutput pt.Buffer pt.Pos.toNat count pt.Feedback pt.Filter
      ({ pt with Buffer := r.1, Filter := r.2 }, pout)
    else (pt, pout)
  else if mode = WM_WRITE then
    if pt.Feedback ≠ 0 then
      let r := DoWorkNoInput pout io pt.Buffer pt.Pos.toNat count pt.WetOut pt.Feedback pt.Filter
      ({ pt with Buffer := r.2.1, Filter := r.2.2 }, r.1)
    else
      let r := DoWorkNoInputNoFB pout io pt.Buffer pt.Pos.toNat count pt.WetOut pt.Filter
      ({ pt with Buffer := r.2.1, Filter := r.2.2 }, r.1)
  else if mode = WM_READ then
    if pt.Feedback ≠ 0 then
      let r := DoWorkNoOutput pin ip pt.Buffer pt.Pos.toNat count pt.Feedback pt.Filter
      ({ pt with Buffer := r.1, Filter := r.2 }, pout)
    else
      ({ pt with Buffer := DoWorkNoOutputNoFB pin ip pt.Buffer pt.Pos.toNat count }, pout)
  else
    if pt.Feedback ≠ 0 then
      let r := DoWork pin ip pout io pt.Buffer pt.Pos.toNat count pt.WetOut pt.Feedback pt.Filter
      ({ pt with Buffer := r.2.1, Filter := r.2.2 }, r.1)
    else
      let r := DoWorkNoFB pin ip pout io pt.Buffer pt.Pos.toNat count pt.WetOut pt.Filter
      ({ pt with Buffer := r.2.1, Filter := r.2.2 }, r.1)

/-- The wrap `if (pt->Pos == pt->Length) pt->Pos = 0` that ends every pass of
`WorkTrack`. -/
def wrapPos (t : CTrack) : CTrack := if t.Pos = t.Length then { t with Pos := 0 } else t

/-- One pass through the body of the `do { ... } while (numsamples > 0)` of
`mi::WorkTrack`: the track, the output region, the advanced `pin` and `pout`
offsets and the remaining `numsamples`. -/
def WorkTrackPass (pt : CTrack) (pin : Mem) (ip : ℕ) (pout : Mem) (io : ℕ) (numsamples : ℤ)
    (mode : ℕ) : CTrack × Mem × ℕ × ℕ × ℤ :=
  let count := min numsamples (pt.Length - pt.Pos)
  let r : CTrack × Mem × ℕ × ℕ × ℤ :=
    if count > 0 then
      let d := dispatch pt pin ip pout io count.toNat mode
      ({ d.1 with Pos := d.1.Pos + count }, d.2, ip + count.toNat, io + count.toNat,
        numsamples - count)
    else (pt, pout, ip, io, numsamples)
  (wrapPos r.1, r.2)

/-- The `do { ... } while (numsamples > 0)` of `mi::WorkTrack`, with a bound on
the number of passes: `none` when the bound is used up before the loop exits. -/
def WorkTrackLoop : ℕ → CTrack → Mem → ℕ → Mem → ℕ → ℤ → ℕ → Option (CTrack × Mem)
  | 0, _, _, _, _, _, _, _ => none
  | fuel + 1, pt, pin, ip, pout, io, numsamples, mode =>
    let r := WorkTrackPass pt pin ip pout io numsamples mode
    if r.2.2.2.2 > 0 then WorkTrackLoop fuel r.1 pin r.2.2.1 r.2.1 r.2.2.2.1 r.2.2.2.2 mode
    else some (r.1, r.2.1)

/-- Function `mi::WorkTrack`. A pass that consumes no sample leaves the state as it was
(or, once, resets `Pos`), so a loop that exits at all exits within
`numsamples + 1` passes; `none` stands for a loop that never exits. -/
def WorkTrack (pt : CTrack) (pin pout : Mem) (numsamples : ℤ) (mode : ℕ) :
    Option (CTrack × Mem) :=
  WorkTrackLoop (numsamples.toNat + 1) pt pin 0 pout 0 numsamples mode

/-- The copy `memcpy(dst, src, n*4)` of `n` floats. -/
def copyMem (dst src : Mem) (n : ℕ) : Mem := fun j => if j < n then src j else dst j

/-- The fill `memset(p, 0, n*4)` of `n` floats with zero. -/
def zeroFill (p : Mem) (n : ℕ) : Mem := fun j => if j < n then 0 else p j

/-- The loop `for (c = 0; c < numTracks; c++) memset(Tracks[c].Buffer, 0,
Tracks[c].Length*4)` of `Work`. -/
def clearBuffers : ℕ → List CTrack → List CTrack
  | 0, ts => ts
  | _ + 1, [] => []
  | n + 1, t :: ts => { t with Buffer := zeroFill t.Buffer t.Length.toNat } :: clearBuffers n ts

/-- The loop `for (c = 0; c < numTracks; c++) WorkTrack(Tracks + c, paux,
psamples, numsamples, mode)` of `Work`. -/
def WorkTracks : ℕ → List CTrack → Mem → Mem → ℤ → ℕ → Option (List CTrack × Mem)
  | 0, ts, _, pout, _, _ => some (ts, pout)
  | _ + 1, [], _, pout, _, _ => some ([], pout)
  | n + 1, t :: ts, pin, pout, numsamples, mode =>
    match WorkTrack t pin pout numsamples mode with
    | none => none
    | some r =>
      match WorkTracks n ts pin r.2 numsamples mode with
      | none => none
      | some rs => some (r.1 :: rs.1, rs.2)

/-- The idle bookkeeping at the head of `mi::Work`: `none` is the early
`return false`. The two `int` sums stay far below `2^31` (samples of silence
before the engine goes idle) and are exact. -/
def WorkIdle (m : mi) (numsamples : ℤ) (mode : ℕ) : Option mi :=
  if mode &&& WM_READ ≠ 0 then
    some { m with IdleMode := false, IdleCount := 0 }
  else if m.IdleMode then none
  else
    let m1 := { m with IdleCount := m.IdleCount + numsamples }
    if m1.IdleCount ≥ m1.DelayTime + MAX_BUFFER_LENGTH then
      some { m1 with Tracks := clearBuffers m1.numTracks m1.Tracks, IdleMode := true }
    else some m1

/-- The aux buffer once `Work` has run `if (mode & WM_READ) memcpy(paux,
psamples, numsamples*4)`. -/
def WorkAux (paux psamples : Mem) (numsamples : ℤ) (mode : ℕ) : Mem :=
  if mode &&& WM_READ ≠ 0 then copyMem paux psamples numsamples.toNat else paux

/-- The sample block once `Work` has run `if (!DryThru || !(mode & WM_READ))
memset(psamples, 0, numsamples*4)`. -/
def WorkDry (DryThru : Bool) (psamples : Mem) (numsamples : ℤ) (mode : ℕ) : Mem :=
  if !DryThru || !(decide (mode &&& WM_READ ≠ 0)) then zeroFill psamples numsamples.toNat
  else psamples

/-- Function `mi::Work`, with the host's aux buffer `paux` (`pCB->GetAuxBuffer()`)
and the sample block `psamples`. Returns the `bool` result, the engine, the aux
buffer and the sample block; `none` when a `WorkTrack` loop never exits. -/
def Work (m : mi) (paux psamples : Mem) (numsamples : ℤ) (mode : ℕ) :
    Option (Bool × mi × Mem × Mem) :=
  match WorkIdle m numsamples mode with
  | none => some (false, m, paux, psamples)
  | some m1 =>
    let paux1 := WorkAux paux psamples numsamples mode
    let ps1 := WorkDry m1.DryThru psamples numsamples mode
    match WorkTracks m1.numTracks m1.Tracks paux1 ps1 numsamples mode with
    | none => none
    | some r => some (true, { m1 with Tracks := r.1 }, paux1, r.2)

/-! ## One sample at a time

`WorkTrack` on a single sample, and its iteration over a block: the reference
against which the sub-range loop of `WorkTrack` is unfolded. -/

/-- One sample through `WorkTrack`: the dispatch with `count = 1` at `pin + ip`,
`pout + io`, then `Pos += 1` and the wrap `if (Pos == Length) Pos = 0`. -/
def WorkSample (pt : CTrack) (pin : Mem) (ip : ℕ) (pout : Mem) (io : ℕ) (mode : ℕ) :
    CTrack × Mem :=
  let d := dispatch pt pin ip pout io 1 mode
  (wrapPos { d.1 with Pos := d.1.Pos + 1 }, d.2)

/-- The first `n` samples from `pin + ip`, `pout + io`, one `WorkSample` each. -/
def WorkSamples : ℕ → CTrack → Mem → ℕ → Mem → ℕ → ℕ → CTrack × Mem
  | 0, pt, _, _, pout, _, _ => (pt, pout)
  | n + 1, pt, pin, ip, pout, io, mode =>
    let r := WorkSample pt pin ip pout io mode
    WorkSamples n r.1 pin (ip + 1) r.2 (io + 1) mode

/-! ## The per-sample algorithm of the specification

The general form the specification gives for the Track Processor, written from
its words; the code is compared with it below. -/

/-- Specification, Track Processor: with `delayed = buffer[cursor]`, filter it,
take `filtered * feedbackGain` as feedback value, store feedback value plus fresh
input at the cursor and advance the delay line, wrapping at the active length.
Returns the track and `filtered`. -/
def specStep (t : CTrack) (x : ℚ) : CTrack × ℚ :=
  let delayed := t.Buffer t.Pos.toNat
  let filtered := bwOut t.Filter delayed
  ({ t with
      Filter := bwShift t.Filter delayed filtered
      Buffer := poke t.Buffer t.Pos.toNat (filtered * t.Feedback + x)
      Pos := if t.Pos + 1 = t.Length then 0 else t.Pos + 1 }, filtered)

/-- Specification: the track after `n` samples of the input `x`, read from
index `i` on. -/
def specRun : ℕ → CTrack → Mem → ℕ → CTrack
  | 0, t, _, _ => t
  | n + 1, t, x, i => specRun n (specStep t (x i)).1 x (i + 1)

/-- Specification: the filtered delayed sample of the track at sample `n` of the
input `x` read from index `i` on. -/
def specTap (n : ℕ) (t : CTrack) (x : Mem) (i : ℕ) : ℚ :=
  (specStep (specRun n t x i) (x (i + n))).2

/-! ## A stream fed in blocks -/

/-- The stream `x` delayed by `L` samples, silence first. -/
def delayedBy (L : ℕ) (x : Mem) : Mem := fun k => if k < L then 0 else x (k - L)

/-- The stream `x` fed through `WorkTrack` in input+output mode, block after
block: the block of size `b` at stream position `off` is the input
`x[off .. off + b)`, processed into a zeroed output block that is then placed at
`y[off .. off + b)`. -/
def WorkTrackBlocks : CTrack → Mem → ℕ → List ℕ → Mem → Option (CTrack × Mem)
  | pt, _, _, [], y => some (pt, y)
  | pt, x, off, b :: bs, y =>
    match WorkTrack pt (fun j => x (off + j)) zeroMem (b : ℤ) WM_READWRITE with
    | none => none
    | some r =>
      WorkTrackBlocks r.1 x (off + b) bs
        (fun k => if off ≤ k ∧ k < off + b then r.2 (k - off) else y k)

/-- The state of a pure delay of `L` samples after `t` samples of the stream `x`:
no feedback, unit wet gain, a filter that passes its input through, the cursor at
`t mod L`, and in the slot the cursor reaches after `j` more samples the sample
due at time `t + j`. -/
def DelayInv (L : ℕ) (x : Mem) (t : ℕ) (pt : CTrack) : Prop :=
  pt.Length = (L : ℤ) ∧ pt.Feedback = 0 ∧ pt.WetOut = 1
    ∧ pt.Filter.a0 = 1 ∧ pt.Filter.a1 = 0 ∧ pt.Filter.a2 = 0 ∧ pt.Filter.a3 = 0
    ∧ pt.Filter.a4 = 0 ∧ pt.Pos = ((t % L : ℕ) : ℤ)
    ∧ ∀ j, j < L → pt.Buffer ((t + j) % L) = delayedBy L x (t + j)

/-! ## The engine over its active tracks -/

/-- The cursor invariant `0 ≤ Pos < Length` of the data model on the first `n`
tracks, the ones `Work` processes. -/
def TracksOK (n : ℕ) (ts : List CTrack) : Prop :=
  ∀ t ∈ ts.take n, 0 ≤ t.Pos ∧ t.Pos < t.Length

/-- The track loop of `Work` with every `WorkTrack` taken sample by sample. -/
def WorkTracksSamples : ℕ → List CTrack → Mem → Mem → ℕ → ℕ → List CTrack × Mem
  | 0, ts, _, pout, _, _ => (ts, pout)
  | _ + 1, [], _, pout, _, _ => ([], pout)
  | n + 1, t :: ts, pin, pout, k, mode =>
    ((WorkSamples k t pin 0 pout 0 mode).1
        :: (WorkTracksSamples n ts pin (WorkSamples k t pin 0 pout 0 mode).2 k mode).1,
      (WorkTracksSamples n ts pin (WorkSamples k t pin 0 pout 0 mode).2 k mode).2)

/-- A track that puts nothing back into its buffer from silence: no feedback, or
an all-zero filter history. -/
def Quiet (t : CTrack) : Prop :=
  t.Feedback = 0 ∨ (t.Filter.i0 = 0 ∧ t.Filter.i1 = 0 ∧ t.Filter.o0 = 0 ∧ t.Filter.o1 = 0)

/-- A quiet track within the cursor invariant whose buffer is zero below `Length`. -/
def Flushed (t : CTrack) : Prop :=
  0 ≤ t.Pos ∧ t.Pos < t.Length ∧ (∀ q : ℕ, (q : ℤ) < t.Length → t.Buffer q = 0) ∧ Quiet t

/-- A track of length 2 with feedback 1/2 whose filter still rings: `a[0] = a[1] = 1`
and the last input `i[0] = 1`. -/
def ringTrack : CTrack :=
  { track0 with Filter := ⟨1, 1, 0, 0, 0, 1, 0, 0, 0⟩, Length := 2, Feedback := 1 / 2 }

/-- An active engine on `ringTrack`, one sample short of going idle: 287 silent
samples counted, decay time 32. -/
def ringEngine : mi :=
  { MaxDelay := 44100, IdleCount := 287, DelayTime := 32, IdleMode := false,
    DryThru := true, numTracks := 1, Tracks := [ringTrack] }

/-! ## The wet mix -/

/-- The wet sum at sample `j`: over the first `n` tracks, the specification's
filtered delayed sample of the track on the input `x`, times the track's `WetOut`. -/
def wetSum (n : ℕ) (ts : List CTrack) (x : Mem) (j : ℕ) : ℚ :=
  ((ts.take n).map (fun t => specTap j t x 0 * t.WetOut)).sum

/-! ## The rest of the control rate: `Tick`, attributes, track count -/

/-- Modelled from the spec: the "unset" sentinel of a switch parameter, the
constant `SWITCH_NO` of `MachineInterface.h` (not among the sources). -/
def SWITCH_NO : ℕ := 255

/-- Modelled from the spec: the "on" value of a switch parameter, the constant
`SWITCH_ON` of `MachineInterface.h` (not among the sources). -/
def SWITCH_ON : ℕ := 1

def paraDryThru : CMachineParameter := ⟨-1, -1, (SWITCH_NO : ℤ), (SWITCH_ON : ℤ)⟩

/-- The fields of `CMachineAttribute` after the name: minimum, maximum, default. -/
structure CMachineAttribute where
  MinValue : ℤ
  MaxValue : ℤ
  DefValue : ℤ
deriving DecidableEq

def attrMaxDelay : CMachineAttribute := ⟨1, 100000, 1000⟩

/-- The global parameter snapshot `gvals`. -/
structure gvals where
  drythru : ℕ
deriving DecidableEq

/-- The attribute values `avals`. -/
structure avals where
  maxdelay : ℤ
deriving DecidableEq

/-- The loop `for (c = 0; c < numTracks; c++) TickTrack(Tracks + c, tval + c)` of
`Tick`. -/
def TickTracks (dsp : DspLib) (info : CMasterInfo) (MaxDelay : ℤ) :
    ℕ → List CTrack → List tvals → List CTrack
  | 0, ts, _ => ts
  | _ + 1, [], _ => []
  | _ + 1, t :: ts, [] => t :: ts
  | n + 1, t :: ts, v :: vs => TickTrack dsp info MaxDelay t v :: TickTracks dsp info MaxDelay n ts vs

/-- The loop of `Tick` that finds the largest decay time: `decay` stands for
`(int)(SilentEnough / log(fabs(Feedback)) * Length)`, a floating-point function
of the feedback and the length that is taken as a parameter. -/
def maxDecay (decay : ℚ → ℤ → ℤ) : ℕ → List CTrack → ℤ → ℤ
  | 0, _, maxdt => maxdt
  | _ + 1, [], maxdt => maxdt
  | n + 1, t :: ts, maxdt =>
    let dt := wrap32 (t.Length + decay t.Feedback t.Length)
    maxDecay decay n ts (if dt > maxdt then dt else maxdt)

/-- Function `mi::Tick`, on the snapshots `tval` and `gval` the host has filled in. -/
def Tick (dsp : DspLib) (info : CMasterInfo) (decay : ℚ → ℤ → ℤ) (m : mi)
    (tval : List tvals) (gval : gvals) : mi :=
  let m1 := { m with Tracks := TickTracks dsp info m.MaxDelay m.numTracks m.Tracks tval }
  let m2 := { m1 with DelayTime := maxDecay decay m1.numTracks m1.Tracks 0 }
  if gval.drythru ≠ SWITCH_NO then { m2 with DryThru := decide (gval.drythru ≠ 0) } else m2

/-- A function applied to the tracks `Tracks[c]` with `lo ≤ c < hi`, the list
starting at index `i`. -/
def onRange (f : CTrack → CTrack) (lo hi : ℕ) : ℕ → List CTrack → List CTrack
  | _, [] => []
  | i, t :: ts => (if lo ≤ i ∧ i < hi then f t else t) :: onRange f lo hi (i + 1) ts

/-- Function `mi::AttributesChanged`: `MaxDelay` from the attribute, by the `double`
expression `SamplesPerSec * (maxdelay / 1000.0)` with each operation rounded, then
`InitTrack` on every active track. -/
def AttributesChanged (info : CMasterInfo) (aval : avals) (m : mi) : mi :=
  let m1 := { m with
    MaxDelay := cvtInt (dmul (info.SamplesPerSec : ℚ) (ddiv (aval.maxdelay : ℚ) 1000)) }
  { m1 with Tracks := onRange (InitTrack m1.MaxDelay) 0 m1.numTracks 0 m1.Tracks }

/-- Function `mi::ResetTrack`: the buffer is released and the pointer set to `NULL`;
the track has no buffer to read until the next `InitTrack`, which the model
renders as an all-zero region. -/
def ResetTrack (t : CTrack) : CTrack := { t with Buffer := zeroMem }

/-- Function `mi::SetNumTracks`. -/
def SetNumTracks (m : mi) (n : ℕ) : mi :=
  let m1 :=
    if m.numTracks < n then
      { m with Tracks := onRange (InitTrack m.MaxDelay) m.numTracks n 0 m.Tracks }
    else if n < m.numTracks then
      { m with Tracks := onRange ResetTrack n m.numTracks 0 m.Tracks }
    else m
  { m1 with numTracks := n }

/-! ## `WorkTrack` at advanced pointers, and its passes -/

/-- Function `mi::WorkTrack` called with the pointers `pin + ip` and `pout + io`. -/
def WorkTrackAt (pt : CTrack) (pin : Mem) (ip : ℕ) (pout : Mem) (io : ℕ) (numsamples : ℤ)
    (mode : ℕ) : Option (CTrack × Mem) :=
  WorkTrackLoop (numsamples.toNat + 1) pt pin ip pout io numsamples mode

/-- The passes of the `do { ... } while (numsamples > 0)` of `mi::WorkTrack`, one
entry per pass: `Pos` at the start of the pass and its `count` (the inner loop
is invoked when `count > 0`). As `WorkTrackLoop`, `none` when the bound on the
number of passes is used up first. -/
def WorkTrackPasses : ℕ → CTrack → Mem → ℕ → Mem → ℕ → ℤ → ℕ → Option (List (ℤ × ℤ))
  | 0, _, _, _, _, _, _, _ => none
  | fuel + 1, pt, pin, ip, pout, io, numsamples, mode =>
    let count := min numsamples (pt.Length - pt.Pos)
    let r := WorkTrackPass pt pin ip pout io numsamples mode
    if r.2.2.2.2 > 0 then
      match WorkTrackPasses fuel r.1 pin r.2.2.1 r.2.1 r.2.2.2.1 r.2.2.2.2 mode with
      | none => none
      | some tr => some ((pt.Pos, count) :: tr)
    else some [(pt.Pos, count)]

/-- A track of length 3 without feedback whose buffer holds the ramp 1, 2, 3, ...
and whose filter passes its input through, with an all-zero history. -/
def rampTrack : CTrack := { track0 with Buffer := ramp, Length := 3, Feedback := 0 }

/-- A snapshot that carries the unit "sample" and nothing else. -/
def unitOnly : tvals := { noVals with unit := 2 }

/-- A snapshot that carries the unit "sample" and the length value 1. -/
def unitAndLength : tvals := { noVals with unit := 2, length := 1 }

/-- A host at 500 samples per second. -/
def host500 : CMasterInfo := ⟨500, 512⟩

/-- A snapshot that carries the unit "ms" and the length value 350. -/
def msTick : tvals := { noVals with unit := 1, length := 350 }

/-! ## The specialised inner loops against the general one -/

theorem DoWorkNoFB_eq (pin : Mem) (wetout : ℚ) (c : ℕ) : ∀ (ip : ℕ) (pout : Mem) (io : ℕ)
    (pbuf : Mem) (ib : ℕ) (s : CBWState),
    DoWorkNoFB pin ip pout io pbuf ib (c + 1) wetout s
      = DoWork pin ip pout io pbuf ib (c + 1) wetout 0 s := by
  induction c with
  | zero => intro ip pout io pbuf ib s; simp [DoWorkNoFB, DoWork]
  | succ k ih =>
    intro ip pout io pbuf ib s
    rw [DoWorkNoFB, DoWork]
    simp only [zero_mul, zero_add]
    exact ih _ _ _ _ _ _

theorem DoWorkNoInput_eq (wetout feedback : ℚ) (c : ℕ) : ∀ (ip : ℕ) (pout : Mem) (io : ℕ)
    (pbuf : Mem) (ib : ℕ) (s : CBWState),
    DoWorkNoInput pout io pbuf ib (c + 1) wetout feedback s
      = DoWork zeroMem ip pout io pbuf ib (c + 1) wetout feedback s := by
  induction c with
  | zero => intro ip pout io pbuf ib s; simp [DoWorkNoInput, DoWork, zeroMem]
  | succ k ih =>
    intro ip pout io pbuf ib s
    rw [DoWorkNoInput, DoWork]
    simp only [zeroMem, add_zero]
    exact ih _ _ _ _ _ _

theorem DoWorkNoInputNoFB_eq (wetout : ℚ) (c : ℕ) : ∀ (ip : ℕ) (pout : Mem) (io : ℕ)
    (pbuf : Mem) (ib : ℕ) (s : CBWState),
    DoWorkNoInputNoFB pout io pbuf ib (c + 1) wetout s
      = DoWork zeroMem ip pout io pbuf ib (c + 1) wetout 0 s := by
  induction c with
  | zero => intro ip pout io pbuf ib s; simp [DoWorkNoInputNoFB, DoWork, zeroMem]
  | succ k ih =>
    intro ip pout io pbuf ib s
    rw [DoWorkNoInputNoFB, DoWork]
    simp only [zeroMem, add_zero, zero_mul]
    exact ih _ _ _ _ _ _

theorem DoWorkNoOutput_eq (pin : Mem) (wetout feedback : ℚ) (c : ℕ) : ∀ (ip : ℕ) (pout : Mem)
    (io : ℕ) (pbuf : Mem) (ib : ℕ) (s : CBWState),
    DoWorkNoOutput pin ip pbuf ib (c + 1) feedback s
      = (DoWork pin ip pout io pbuf ib (c + 1) wetout feedback s).2 := by
  induction c with
  | zero => intro ip pout io pbuf ib s; simp [DoWorkNoOutput, DoWork]
  | succ k ih =>
    intro ip pout io pbuf ib s
    rw [DoWorkNoOutput, DoWork]
    exact ih _ _ _ _ _ _

theorem DoWorkNoInputNoOutput_eq (wetout feedback : ℚ) (c : ℕ) : ∀ (ip : ℕ) (pout : Mem)
    (io : ℕ) (pbuf : Mem) (ib : ℕ) (s : CBWState),
    DoWorkNoInputNoOutput pbuf ib (c + 1) feedback s
      = (DoWork zeroMem ip pout io pbuf ib (c + 1) wetout feedback s).2 := by
  induction c with
  | zero =>
    intro ip pout io pbuf ib s
    simp [DoWorkNoInputNoOutput, DoWork, zeroMem, mul_comm]
  | succ k ih =>
    intro ip pout io pbuf ib s
    rw [DoWorkNoInputNoOutput, DoWork]
    simp only [zeroMem, add_zero]
    rw [mul_comm (bwOut s (pbuf ib)) feedback]
    exact ih _ _ _ _ _ _

/-- C1. In exact arithmetic, for every count `c ≥ 1`, every filter state, buffer,
output region, gains and input, each specialised inner loop agrees with the
general loop `DoWork` on the same effective inputs: `DoWorkNoFB` is `DoWork` with
feedback 0, `DoWorkNoInput` is `DoWork` on an all-zero input, `DoWorkNoInputNoFB`
is `DoWork` on an all-zero input with feedback 0 (all three on output, buffer and
filter state); `DoWorkNoOutput` and `DoWorkNoInputNoOutput` are `DoWork` (the
latter on an all-zero input) on buffer and filter state, the output discarded. -/
theorem specialised_loops_agree_with_DoWork (pin pout pbuf : Mem) (ip io ib c : ℕ)
    (wetout feedback : ℚ) (s : CBWState) (hc : 1 ≤ c) :
    DoWorkNoFB pin ip pout io pbuf ib c wetout s
        = DoWork pin ip pout io pbuf ib c wetout 0 s
      ∧ DoWorkNoInput pout io pbuf ib c wetout feedback s
        = DoWork zeroMem ip pout io pbuf ib c wetout feedback s
      ∧ DoWorkNoInputNoFB pout io pbuf ib c wetout s
        = DoWork zeroMem ip pout io pbuf ib c wetout 0 s
      ∧ DoWorkNoOutput pin ip pbuf ib c feedback s
        = (DoWork pin ip pout io pbuf ib c wetout feedback s).2
      ∧ DoWorkNoInputNoOutput pbuf ib c feedback s
        = (DoWork zeroMem ip pout io pbuf ib c wetout feedback s).2 := by
  obtain ⟨k, rfl⟩ : ∃ k, c = k + 1 := ⟨c - 1, by omega⟩
  exact ⟨DoWorkNoFB_eq pin wetout k ip pout io pbuf ib s,
    DoWorkNoInput_eq wetout feedback k ip pout io pbuf ib s,
    DoWorkNoInputNoFB_eq wetout k ip pout io pbuf ib s,
    DoWorkNoOutput_eq pin wetout feedback k ip pout io pbuf ib s,
    DoWorkNoInputNoOutput_eq wetout feedback k ip pout io pbuf ib s⟩

theorem specialised_loops_agree_with_DoWork_witness :
    DoWorkNoFB ramp 0 zeroMem 0 zeroMem 0 3 (1 / 2) track0.Filter
      = DoWork ramp 0 zeroMem 0 zeroMem 0 3 (1 / 2) 0 track0.Filter :=
  (specialised_loops_agree_with_DoWork ramp zeroMem zeroMem 0 0 0 3 (1 / 2) (3 / 10)
    track0.Filter (by decide)).1

/-! ## The sub-range loop of `WorkTrack`, sample by sample -/

theorem dispatch_Length (pt : CTrack) (pin : Mem) (ip : ℕ) (pout : Mem) (io c mode : ℕ) :
    (dispatch pt pin ip pout io c mode).1.Length = pt.Length := by
  simp only [dispatch]; split_ifs <;> rfl

theorem dispatch_Pos (pt : CTrack) (pin : Mem) (ip : ℕ) (pout : Mem) (io c mode : ℕ) :
    (dispatch pt pin ip pout io c mode).1.Pos = pt.Pos := by
  simp only [dispatch]; split_ifs <;> rfl

theorem dispatch_Feedback (pt : CTrack) (pin : Mem) (ip : ℕ) (pout : Mem) (io c mode : ℕ) :
    (dispatch pt pin ip pout io c mode).1.Feedback = pt.Feedback := by
  simp only [dispatch]; split_ifs <;> rfl

theorem dispatch_WetOut (pt : CTrack) (pin : Mem) (ip : ℕ) (pout : Mem) (io c mode : ℕ) :
    (dispatch pt pin ip pout io c mode).1.WetOut = pt.WetOut := by
  simp only [dispatch]; split_ifs <;> rfl

theorem DoWorkNoOutputNoFB_succ (psamples : Mem) (ip : ℕ) (pbuf : Mem) (ib c : ℕ) :
    DoWorkNoOutputNoFB psamples ip pbuf ib (c + 1)
      = DoWorkNoOutputNoFB psamples (ip + 1) (DoWorkNoOutputNoFB psamples ip pbuf ib 1)
          (ib + 1) c := by
  funext j
  simp only [DoWorkNoOutputNoFB]
  by_cases h1 : j = ib
  · subst h1; simp
  · by_cases h2 : ib + 1 ≤ j ∧ j < ib + 1 + c
    · have h3 : ib ≤ j ∧ j < ib + (c + 1) := by omega
      have h4 : ip + 1 + (j - (ib + 1)) = ip + (j - ib) := by omega
      simp [h2, h3, h4]
    · have h3 : ¬ (ib ≤ j ∧ j < ib + (c + 1)) := by omega
      have h4 : ¬ (ib ≤ j ∧ j < ib + 1) := by omega
      simp [h2, h3, h4]

/-- A sub-range of `c + 2` samples is its first sample followed by the sub-range
of the remaining `c + 1` samples one element further. -/
theorem dispatch_succ (pt : CTrack) (pin : Mem) (ip : ℕ) (pout : Mem) (io c mode : ℕ)
    (hp : 0 ≤ pt.Pos) :
    dispatch pt pin ip pout io (c + 2) mode
      = ({ (dispatch { (dispatch pt pin ip pout io 1 mode).1 with Pos := pt.Pos + 1 } pin
              (ip + 1) (dispatch pt pin ip pout io 1 mode).2 (io + 1) (c + 1) mode).1 with
            Pos := pt.Pos },
          (dispatch { (dispatch pt pin ip pout io 1 mode).1 with Pos := pt.Pos + 1 } pin
              (ip + 1) (dispatch pt pin ip pout io 1 mode).2 (io + 1) (c + 1) mode).2) := by
  have hn : (pt.Pos + 1).toNat = pt.Pos.toNat + 1 := by omega
  simp only [dispatch]
  split_ifs
  · rw [DoWorkNoInputNoOutput]; simp [hn, DoWorkNoInputNoOutput]
  · rfl
  · rw [DoWorkNoInput]; simp [hn, DoWorkNoInput]
  · rw [DoWorkNoInputNoFB]; simp [hn, DoWorkNoInputNoFB]
  · rw [DoWorkNoOutput]; simp [hn, DoWorkNoOutput]
  · rw [DoWorkNoOutputNoFB_succ]; simp [hn]
  · rw [DoWork]; simp [hn, DoWork]
  · rw [DoWorkNoFB]; simp [hn, DoWorkNoFB]

theorem WorkSamples_dispatch (pin : Mem) (mode c : ℕ) : ∀ (pt : CTrack) (ip : ℕ) (pout : Mem)
    (io : ℕ), 0 ≤ pt.Pos → pt.Pos + ((c : ℤ) + 1) ≤ pt.Length →
    WorkSamples (c + 1) pt pin ip pout io mode
      = (wrapPos { (dispatch pt pin ip pout io (c + 1) mode).1 with
            Pos := pt.Pos + ((c : ℤ) + 1) },
          (dispatch pt pin ip pout io (c + 1) mode).2) := by
  induction c with
  | zero =>
    intro pt ip pout io _ _
    simp [WorkSamples, WorkSample, dispatch_Pos]
  | succ k ih =>
    intro pt ip pout io hp hl
    have hne : pt.Pos + 1 ≠ pt.Length := by push_cast at hl; omega
    rw [WorkSamples]
    have hs : WorkSample pt pin ip pout io mode
        = ({ (dispatch pt pin ip pout io 1 mode).1 with Pos := pt.Pos + 1 },
            (dispatch pt pin ip pout io 1 mode).2) := by
      simp [WorkSample, wrapPos, dispatch_Pos, dispatch_Length, hne]
    rw [hs]
    simp only []
    rw [ih _ _ _ _ (by simp only []; omega)
      (by simp only [dispatch_Length]; push_cast at hl; omega)]
    rw [dispatch_succ pt pin ip pout io k mode hp]
    have ha : pt.Pos + 1 + ((k : ℤ) + 1) = pt.Pos + (((k + 1 : ℕ) : ℤ) + 1) := by
      push_cast; ring
    simp only [ha]

theorem WorkSample_Length (pt : CTrack) (pin : Mem) (ip : ℕ) (pout : Mem) (io mode : ℕ) :
    (WorkSample pt pin ip pout io mode).1.Length = pt.Length := by
  simp only [WorkSample, wrapPos]
  split_ifs <;> simp [dispatch_Length]

theorem WorkSample_Pos (pt : CTrack) (pin : Mem) (ip : ℕ) (pout : Mem) (io mode : ℕ) :
    (WorkSample pt pin ip pout io mode).1.Pos
      = if pt.Pos + 1 = pt.Length then 0 else pt.Pos + 1 := by
  simp only [WorkSample, wrapPos, dispatch_Pos, dispatch_Length]
  split_ifs <;> rfl

theorem WorkSamples_add (pin : Mem) (mode : ℕ) (a b : ℕ) : ∀ (pt : CTrack) (ip : ℕ) (pout : Mem)
    (io : ℕ),
    WorkSamples (a + b) pt pin ip pout io mode
      = WorkSamples b (WorkSamples a pt pin ip pout io mode).1 pin (ip + a)
          (WorkSamples a pt pin ip pout io mode).2 (io + a) mode := by
  induction a with
  | zero => intro pt ip pout io; simp [WorkSamples]
  | succ k ih =>
    intro pt ip pout io
    have h : k + 1 + b = (k + b) + 1 := by omega
    rw [h, WorkSamples, ih, WorkSamples]
    have h1 : ip + 1 + k = ip + (k + 1) := by omega
    have h2 : io + 1 + k = io + (k + 1) := by omega
    rw [h1, h2]

theorem WorkSamples_Length (pin : Mem) (mode : ℕ) (n : ℕ) : ∀ (pt : CTrack) (ip : ℕ)
    (pout : Mem) (io : ℕ), (WorkSamples n pt pin ip pout io mode).1.Length = pt.Length := by
  induction n with
  | zero => intro pt ip pout io; rfl
  | succ k ih => intro pt ip pout io; rw [WorkSamples, ih, WorkSample_Length]

/-- The cursor after `n` samples: still inside `[0, Length)`. -/
theorem WorkSamples_Pos_bounds (pin : Mem) (mode : ℕ) (n : ℕ) : ∀ (pt : CTrack) (ip : ℕ)
    (pout : Mem) (io : ℕ), 0 ≤ pt.Pos → pt.Pos < pt.Length →
    0 ≤ (WorkSamples n pt pin ip pout io mode).1.Pos
      ∧ (WorkSamples n pt pin ip pout io mode).1.Pos < pt.Length := by
  induction n with
  | zero => intro pt ip pout io h0 h1; exact ⟨h0, h1⟩
  | succ k ih =>
    intro pt ip pout io h0 h1
    rw [WorkSamples]
    have hL := WorkSample_Length pt pin ip pout io mode
    have hP := WorkSample_Pos pt pin ip pout io mode
    have := ih (WorkSample pt pin ip pout io mode).1 (ip + 1)
      (WorkSample pt pin ip pout io mode).2 (io + 1)
      (by rw [hP]; split_ifs <;> omega) (by rw [hP, hL]; split_ifs <;> omega)
    rwa [hL] at this

theorem WorkTrackPass_zero (pt : CTrack) (pin : Mem) (ip : ℕ) (pout : Mem) (io : ℕ) (mode : ℕ)
    (h1 : pt.Pos < pt.Length) :
    WorkTrackPass pt pin ip pout io 0 mode = (pt, pout, ip, io, 0) := by
  have hc : ¬ (min (0 : ℤ) (pt.Length - pt.Pos) > 0) := by omega
  have hw : wrapPos pt = pt := by simp [wrapPos]; omega
  simp [WorkTrackPass, hc, hw]

theorem WorkTrackPass_pos (pt : CTrack) (pin : Mem) (ip : ℕ) (pout : Mem) (io : ℕ) (mode : ℕ)
    (n : ℤ) (c : ℕ) (h0 : 0 ≤ pt.Pos) (hc : min n (pt.Length - pt.Pos) = (c : ℤ) + 1) :
    WorkTrackPass pt pin ip pout io n mode
      = ((WorkSamples (c + 1) pt pin ip pout io mode).1,
          (WorkSamples (c + 1) pt pin ip pout io mode).2, ip + (c + 1), io + (c + 1),
          n - ((c : ℤ) + 1)) := by
  have hpos : (c : ℤ) + 1 > 0 := by omega
  have htn : ((c : ℤ) + 1).toNat = c + 1 := by omega
  rw [WorkSamples_dispatch pin mode c pt ip pout io h0 (by omega)]
  simp only [WorkTrackPass, hc, hpos, if_true, htn, dispatch_Pos]

/-- Under the cursor invariant `0 ≤ Pos < Length`, the sub-range loop of
`WorkTrack` exits within `numsamples + 1` passes, and what it computes is the
block processed one sample at a time. -/
theorem WorkTrackLoop_eq (pin : Mem) (mode : ℕ) (fuel : ℕ) : ∀ (n : ℕ) (pt : CTrack) (ip : ℕ)
    (pout : Mem) (io : ℕ), 0 ≤ pt.Pos → pt.Pos < pt.Length → n < fuel →
    WorkTrackLoop fuel pt pin ip pout io (n : ℤ) mode
      = some (WorkSamples n pt pin ip pout io mode) := by
  induction fuel with
  | zero => intro n pt ip pout io _ _ h; omega
  | succ f ih =>
    intro n pt ip pout io h0 h1 hf
    rw [WorkTrackLoop]
    by_cases hn : n = 0
    · subst hn
      simp [WorkTrackPass_zero pt pin ip pout io mode h1, WorkSamples]
    · obtain ⟨c, hc⟩ : ∃ c : ℕ, min (n : ℤ) (pt.Length - pt.Pos) = (c : ℤ) + 1 :=
        ⟨(min (n : ℤ) (pt.Length - pt.Pos) - 1).toNat, by omega⟩
      have hcn : c + 1 ≤ n := by omega
      rw [WorkTrackPass_pos pt pin ip pout io mode n c h0 hc]
      have hL := WorkSamples_Length pin mode (c + 1) pt ip pout io
      have hB := WorkSamples_Pos_bounds pin mode (c + 1) pt ip pout io h0 h1
      obtain ⟨m, hm⟩ : ∃ m : ℕ, n = (c + 1) + m := ⟨n - (c + 1), by omega⟩
      have hsub : (n : ℤ) - ((c : ℤ) + 1) = (m : ℤ) := by omega
      rw [hsub]
      subst hm
      by_cases hm0 : m = 0
      · subst hm0
        have hz : ¬ (((0 : ℕ) : ℤ) > 0) := by simp
        rw [if_neg hz]
      · have hmp : (m : ℤ) > 0 := by omega
        rw [if_pos hmp]
        rw [ih m _ _ _ _ hB.1 (by rw [hL]; exact hB.2) (by omega)]
        rw [WorkSamples_add pin mode (c + 1) m pt ip pout io]

/-- Under the cursor invariant, `WorkTrack` returns, and returns the block
processed one sample at a time. -/
theorem WorkTrack_eq (pt : CTrack) (pin pout : Mem) (n : ℕ) (mode : ℕ)
    (h0 : 0 ≤ pt.Pos) (h1 : pt.Pos < pt.Length) :
    WorkTrack pt pin pout (n : ℤ) mode = some (WorkSamples n pt pin 0 pout 0 mode) := by
  unfold WorkTrack
  exact WorkTrackLoop_eq pin mode _ n pt 0 pout 0 h0 h1 (by omega)

/-! ## The code against the per-sample algorithm of the specification -/

theorem specStep_Length (t : CTrack) (x : ℚ) : (specStep t x).1.Length = t.Length := rfl

theorem specStep_WetOut (t : CTrack) (x : ℚ) : (specStep t x).1.WetOut = t.WetOut := rfl

theorem specStep_Feedback (t : CTrack) (x : ℚ) : (specStep t x).1.Feedback = t.Feedback := rfl

theorem specRun_Length (n : ℕ) : ∀ (t : CTrack) (x : Mem) (i : ℕ),
    (specRun n t x i).Length = t.Length := by
  induction n with
  | zero => intro t x i; rfl
  | succ k ih => intro t x i; rw [specRun, ih, specStep_Length]

theorem specRun_WetOut (n : ℕ) : ∀ (t : CTrack) (x : Mem) (i : ℕ),
    (specRun n t x i).WetOut = t.WetOut := by
  induction n with
  | zero => intro t x i; rfl
  | succ k ih => intro t x i; rw [specRun, ih, specStep_WetOut]

theorem specTap_succ (n : ℕ) (t : CTrack) (x : Mem) (i : ℕ) :
    specTap (n + 1) t x i = specTap n (specStep t (x i)).1 x (i + 1) := by
  simp only [specTap, specRun]
  have h : i + (n + 1) = i + 1 + n := by omega
  rw [h]

/-- With output wanted, one sample through the code is one step of the
specification's algorithm on the effective input (the input when present, zero
otherwise), its filtered sample times `WetOut` added into the output. -/
theorem WorkSample_spec (pt : CTrack) (pin x : Mem) (ip : ℕ) (pout : Mem) (io mode : ℕ)
    (h : (mode = WM_READWRITE ∧ x = pin) ∨ (mode = WM_WRITE ∧ x = zeroMem)) :
    WorkSample pt pin ip pout io mode
      = ((specStep pt (x ip)).1,
          poke pout io (pout io + (specStep pt (x ip)).2 * pt.WetOut)) := by
  rcases h with ⟨hm, hx⟩ | ⟨hm, hx⟩
  · subst hm hx
    by_cases hf : pt.Feedback = 0
    · simp [WorkSample, dispatch, WM_READWRITE, WM_NOIO, WM_WRITE, WM_READ, hf, DoWorkNoFB,
        specStep, wrapPos]
      split_ifs <;> rfl
    · simp [WorkSample, dispatch, WM_READWRITE, WM_NOIO, WM_WRITE, WM_READ, hf, DoWork,
        specStep, wrapPos, mul_comm]
      split_ifs <;> rfl
  · subst hm hx
    by_cases hf : pt.Feedback = 0
    · simp [WorkSample, dispatch, WM_NOIO, WM_WRITE, hf, DoWorkNoInputNoFB,
        specStep, wrapPos, zeroMem]
      split_ifs <;> rfl
    · simp [WorkSample, dispatch, WM_NOIO, WM_WRITE, hf, DoWorkNoInput,
        specStep, wrapPos, mul_comm, zeroMem]
      split_ifs <;> rfl

/-- With output wanted, a block through the code is the specification's algorithm
run over the effective input, each filtered sample times `WetOut` added into the
output sample of its position. -/
theorem WorkSamples_spec (pin x : Mem) (mode : ℕ)
    (h : (mode = WM_READWRITE ∧ x = pin) ∨ (mode = WM_WRITE ∧ x = zeroMem)) (n : ℕ) :
    ∀ (pt : CTrack) (ip : ℕ) (pout : Mem) (io : ℕ),
    (WorkSamples n pt pin ip pout io mode).1 = specRun n pt x ip
      ∧ ∀ k, (WorkSamples n pt pin ip pout io mode).2 k
          = if io ≤ k ∧ k < io + n then pout k + specTap (k - io) pt x ip * pt.WetOut
            else pout k := by
  induction n with
  | zero =>
    intro pt ip pout io
    refine ⟨rfl, fun k => ?_⟩
    have hno : ¬ (io ≤ k ∧ k < io + 0) := by omega
    rw [if_neg hno]
    rfl
  | succ m ih =>
    intro pt ip pout io
    rw [WorkSamples, WorkSample_spec pt pin x ip pout io mode h]
    obtain ⟨h1, h2⟩ := ih (specStep pt (x ip)).1 (ip + 1)
      (poke pout io (pout io + (specStep pt (x ip)).2 * pt.WetOut)) (io + 1)
    refine ⟨by rw [h1, specRun], fun k => ?_⟩
    rw [h2 k, specStep_WetOut]
    by_cases hk : k = io
    · subst hk
      have ha : ¬ (k + 1 ≤ k ∧ k < k + 1 + m) := by omega
      have hb : k ≤ k ∧ k < k + (m + 1) := by omega
      simp [ha, hb, poke, specTap, specRun]
    · by_cases hr : io + 1 ≤ k ∧ k < io + 1 + m
      · have hb : io ≤ k ∧ k < io + (m + 1) := by omega
        have hc : k - io = (k - (io + 1)) + 1 := by omega
        rw [if_pos hr, if_pos hb, hc, specTap_succ]
        simp [poke, hk]
      · have hb : ¬ (io ≤ k ∧ k < io + (m + 1)) := by omega
        rw [if_neg hr, if_neg hb]
        simp [poke, hk]

/-! ## The simple delay -/

theorem succ_mod_wrap (t L : ℕ) (hL : 0 < L) :
    (t + 1) % L = if t % L + 1 = L then 0 else t % L + 1 := by
  have hlt : t % L < L := Nat.mod_lt t hL
  have ht : t + 1 = (t % L + 1) + L * (t / L) := by
    have := Nat.mod_add_div t L
    omega
  rw [ht, Nat.add_mul_mod_self_left]
  split_ifs with h
  · rw [h, Nat.mod_self]
  · exact Nat.mod_eq_of_lt (by omega)

theorem add_mod_ne (t i L : ℕ) (h0 : 0 < i) (h1 : i < L) : (t + i) % L ≠ t % L := by
  intro h
  have h2 : t + i ≡ t + 0 [MOD L] := by simpa [Nat.ModEq] using h
  have h3 : i ≡ 0 [MOD L] := Nat.ModEq.add_left_cancel' t h2
  have h4 : i % L = 0 := by simpa [Nat.ModEq] using h3
  rw [Nat.mod_eq_of_lt h1] at h4
  omega

theorem specStep_delay (L : ℕ) (x : Mem) (t : ℕ) (pt : CTrack) (hL : 1 ≤ L)
    (h : DelayInv L x t pt) :
    DelayInv L x (t + 1) (specStep pt (x t)).1 ∧ (specStep pt (x t)).2 = delayedBy L x t := by
  obtain ⟨hLen, hF, hW, h0, h1, h2, h3, h4, hP, hB⟩ := h
  have hlt : t % L < L := Nat.mod_lt t (by omega)
  have hpn : pt.Pos.toNat = t % L := by rw [hP]; exact Int.toNat_ofNat _
  have hd : pt.Buffer (t % L) = delayedBy L x t := by simpa using hB 0 (by omega)
  have ho : bwOut pt.Filter (pt.Buffer (t % L)) = delayedBy L x t := by
    simp [bwOut, h0, h1, h2, h3, h4, hd]
  refine ⟨⟨hLen, hF, hW, h0, h1, h2, h3, h4, ?_, ?_⟩, ?_⟩
  · simp only [specStep, hP, hLen]
    rw [succ_mod_wrap t L (by omega)]
    split_ifs with ha hb hb
    · rfl
    · exact absurd (by exact_mod_cast ha) hb
    · exact absurd (by exact_mod_cast hb) ha
    · push_cast; rfl
  · intro j hj
    simp only [specStep, hpn, poke, hF, mul_zero, zero_add]
    by_cases hjl : j + 1 = L
    · have he : (t + 1 + j) % L = t % L := by
        have : t + 1 + j = t + L := by omega
        rw [this, Nat.add_mod_right]
      have hx : delayedBy L x (t + 1 + j) = x t := by
        have h5 : ¬ (t + 1 + j < L) := by omega
        have h6 : t + 1 + j - L = t := by omega
        simp [delayedBy, h5, h6]
      rw [if_pos he, hx]
    · have hne : (t + 1 + j) % L ≠ t % L := by
        have : t + 1 + j = t + (j + 1) := by omega
        rw [this]
        exact add_mod_ne t (j + 1) L (by omega) (by omega)
      rw [if_neg hne]
      have := hB (j + 1) (by omega)
      have e : t + 1 + j = t + (j + 1) := by omega
      rw [e]
      exact this
  · simp only [specStep, hpn]
    exact ho

theorem specRun_delay (L : ℕ) (x : Mem) (hL : 1 ≤ L) (n : ℕ) : ∀ (t : ℕ) (pt : CTrack)
    (pin : Mem) (i : ℕ), (∀ j, pin (i + j) = x (t + j)) → DelayInv L x t pt →
    DelayInv L x (t + n) (specRun n pt pin i) := by
  induction n with
  | zero => intro t pt pin i _ h; exact h
  | succ m ih =>
    intro t pt pin i hp h
    rw [specRun]
    have hx : pin i = x t := by simpa using hp 0
    rw [hx]
    have h1 := (specStep_delay L x t pt hL h).1
    have := ih (t + 1) (specStep pt (x t)).1 pin (i + 1)
      (fun j => by have := hp (j + 1); rw [show i + 1 + j = i + (j + 1) by omega,
        show t + 1 + j = t + (j + 1) by omega]; exact this) h1
    rw [show t + (m + 1) = t + 1 + m by omega]
    exact this

theorem specTap_delay (L : ℕ) (x : Mem) (hL : 1 ≤ L) (n t : ℕ) (pt : CTrack) (pin : Mem)
    (i : ℕ) (hp : ∀ j, pin (i + j) = x (t + j)) (h : DelayInv L x t pt) :
    specTap n pt pin i = delayedBy L x (t + n) := by
  have h1 := specRun_delay L x hL n t pt pin i hp h
  rw [specTap, hp n]
  exact (specStep_delay L x (t + n) _ hL h1).2

theorem WorkTrack_delay_block (L : ℕ) (x : Mem) (hL : 1 ≤ L) (off b : ℕ) (pt : CTrack)
    (h : DelayInv L x off pt) :
    ∃ r, WorkTrack pt (fun j => x (off + j)) zeroMem (b : ℤ) WM_READWRITE = some r
      ∧ DelayInv L x (off + b) r.1 ∧ ∀ j, j < b → r.2 j = delayedBy L x (off + j) := by
  have hlt : off % L < L := Nat.mod_lt off (by omega)
  have hP0 : 0 ≤ pt.Pos := by rw [h.2.2.2.2.2.2.2.2.1]; omega
  have hP1 : pt.Pos < pt.Length := by rw [h.2.2.2.2.2.2.2.2.1, h.1]; omega
  refine ⟨_, WorkTrack_eq pt _ zeroMem b WM_READWRITE hP0 hP1, ?_, ?_⟩
  · rw [(WorkSamples_spec (fun j => x (off + j)) (fun j => x (off + j)) WM_READWRITE
      (Or.inl ⟨rfl, rfl⟩) b pt 0 zeroMem 0).1]
    exact specRun_delay L x hL b off pt _ 0 (fun j => by simp) h
  · intro j hj
    rw [(WorkSamples_spec (fun j => x (off + j)) (fun j => x (off + j)) WM_READWRITE
      (Or.inl ⟨rfl, rfl⟩) b pt 0 zeroMem 0).2 j]
    have hr : 0 ≤ j ∧ j < 0 + b := by omega
    rw [if_pos hr, h.2.2.1, specTap_delay L x hL (j - 0) off pt _ 0 (fun j => by simp) h]
    simp [zeroMem]

theorem WorkTrackBlocks_delay (L : ℕ) (x : Mem) (hL : 1 ≤ L) (blocks : List ℕ) :
    ∀ (off : ℕ) (pt : CTrack) (y : Mem), DelayInv L x off pt →
    (∀ k, k < off → y k = delayedBy L x k) →
    ∃ r, WorkTrackBlocks pt x off blocks y = some r
      ∧ ∀ k, k < off + blocks.sum → r.2 k = delayedBy L x k := by
  induction blocks with
  | nil =>
    intro off pt y _ hy
    exact ⟨(pt, y), rfl, fun k hk => hy k (by simpa using hk)⟩
  | cons b bs ih =>
    intro off pt y h hy
    obtain ⟨r, hr, hinv, hout⟩ := WorkTrack_delay_block L x hL off b pt h
    obtain ⟨r2, hr2, hout2⟩ := ih (off + b) r.1
      (fun k => if off ≤ k ∧ k < off + b then r.2 (k - off) else y k) hinv
      (fun k hk => by
        show (if off ≤ k ∧ k < off + b then r.2 (k - off) else y k) = delayedBy L x k
        by_cases hc : off ≤ k ∧ k < off + b
        · rw [if_pos hc, hout (k - off) (by omega)]
          congr 1; omega
        · rw [if_neg hc]; exact hy k (by omega))
    refine ⟨r2, ?_, fun k hk => hout2 k (by simp only [List.sum_cons] at hk; omega)⟩
    rw [WorkTrackBlocks, hr]
    exact hr2

/-- C2. Simple delay: a track with `1 ≤ Length`, `Pos = 0`, a buffer that is zero
below `Length`, `Feedback = 0`, `WetOut = 1` and pass-through filter coefficients
(`a[0] = 1`, `a[1..4] = 0`; whatever its filter history), fed an input `x` through
`WorkTrack` in input+output mode, in one block or in any sequence of blocks, each
into a zeroed output, returns from every block and puts out the input delayed by
exactly `Length` samples: `out[k] = 0` for `k < Length` and `out[k] = x[k - Length]`
from there on, for every `k` below the number of samples fed. -/
theorem WorkTrack_simple_delay (pt : CTrack) (x : Mem) (blocks : List ℕ)
    (hLen : 1 ≤ pt.Length) (hPos : pt.Pos = 0)
    (hBuf : ∀ q : ℕ, (q : ℤ) < pt.Length → pt.Buffer q = 0)
    (hF : pt.Feedback = 0) (hW : pt.WetOut = 1)
    (h0 : pt.Filter.a0 = 1) (h1 : pt.Filter.a1 = 0) (h2 : pt.Filter.a2 = 0)
    (h3 : pt.Filter.a3 = 0) (h4 : pt.Filter.a4 = 0) :
    ∃ r, WorkTrackBlocks pt x 0 blocks zeroMem = some r
      ∧ ∀ k, k < blocks.sum →
          r.2 k = if (k : ℤ) < pt.Length then 0 else x (k - pt.Length.toNat) := by
  obtain ⟨L, hLe⟩ : ∃ L : ℕ, pt.Length = (L : ℤ) := ⟨pt.Length.toNat, by omega⟩
  have hL : 1 ≤ L := by omega
  have hinv : DelayInv L x 0 pt := by
    refine ⟨hLe, hF, hW, h0, h1, h2, h3, h4, by simp [hPos], fun j hj => ?_⟩
    have hm : (0 + j) % L = j := by rw [Nat.zero_add]; exact Nat.mod_eq_of_lt hj
    rw [hm, hBuf j (by omega)]
    simp [delayedBy, hj]
  obtain ⟨r, hr, hout⟩ := WorkTrackBlocks_delay L x hL blocks 0 pt zeroMem hinv
    (fun k hk => by omega)
  refine ⟨r, hr, fun k hk => ?_⟩
  rw [hout k (by omega), hLe]
  simp [delayedBy]

theorem WorkTrack_simple_delay_witness :
    ∃ r, WorkTrackBlocks delay3 ramp 0 [2, 4, 1] zeroMem = some r
      ∧ ∀ k, k < [2, 4, 1].sum →
          r.2 k = if (k : ℤ) < delay3.Length then 0 else ramp (k - delay3.Length.toNat) :=
  WorkTrack_simple_delay delay3 ramp [2, 4, 1] (by decide) rfl (fun _ _ => rfl) rfl rfl
    rfl rfl rfl rfl rfl

/-! ## The `double` arithmetic of the control rate -/

theorem rne_floor_le (x : ℚ) : ⌊x⌋ ≤ rne x := by
  unfold rne; split_ifs <;> omega

theorem rne_le_floor_succ (x : ℚ) : rne x ≤ ⌊x⌋ + 1 := by
  unfold rne; split_ifs <;> omega

/-- Rounding to the nearest integer moves a number by at most one half. -/
theorem rne_err (x : ℚ) : |(rne x : ℚ) - x| ≤ 1 / 2 := by
  have h1 := Int.floor_le x
  have h2 := Int.lt_floor_add_one x
  unfold rne
  rw [abs_le]
  split_ifs with a b c
  · constructor <;> linarith
  · push_cast; constructor <;> linarith
  · constructor <;> linarith
  · push_cast; constructor <;> linarith

theorem rne_eq_of_abs_lt (x : ℚ) (n : ℤ) (h : |x - (n : ℚ)| < 1 / 2) : rne x = n := by
  rw [abs_lt] at h
  obtain ⟨h1, h2⟩ := h
  by_cases hx : (n : ℚ) ≤ x
  · have hf : ⌊x⌋ = n := by
      rw [Int.floor_eq_iff]; constructor <;> linarith
    unfold rne
    rw [hf, if_pos (by linarith)]
  · have hf : ⌊x⌋ = n - 1 := by
      rw [Int.floor_eq_iff]; push_cast; constructor <;> linarith
    unfold rne
    rw [hf]
    push_cast
    rw [if_neg (by linarith), if_pos (by linarith)]
    ring

theorem rne_ge_of_le (x : ℚ) (n : ℤ) (h : (n : ℚ) ≤ x) : n ≤ rne x :=
  le_trans (Int.le_floor.mpr h) (rne_floor_le x)

theorem rne_le_of_le (x : ℚ) (n : ℤ) (h : x ≤ (n : ℚ)) : rne x ≤ n := by
  by_cases hx : x = (⌊x⌋ : ℚ)
  · have : rne x = ⌊x⌋ := by
      unfold rne; rw [if_pos (by linarith)]
    rw [this]
    exact_mod_cast (show ((⌊x⌋ : ℤ) : ℚ) ≤ n by linarith)
  · have h1 : (⌊x⌋ : ℚ) < x := lt_of_le_of_ne (Int.floor_le x) (Ne.symm hx)
    have h2 : ((⌊x⌋ : ℤ) : ℚ) < (n : ℚ) := lt_of_lt_of_le h1 h
    have h3 : ⌊x⌋ < n := by exact_mod_cast h2
    have := rne_le_floor_succ x
    omega

theorem ulp_pos (x : ℚ) : 0 < ulp x := by
  unfold ulp; positivity

theorem fl_of_pos (x : ℚ) (h : 0 < x) : fl x = (rne (x / ulp x) : ℚ) * ulp x := by
  unfold fl; rw [if_neg (ne_of_gt h), if_pos h]

/-- For positive `x`, `2 ^ 52 ≤ x / ulp x < 2 ^ 53`. -/
theorem ulp_bounds (x : ℚ) (h : 0 < x) :
    (2 : ℚ) ^ (52 : ℕ) * ulp x ≤ x ∧ x < (2 : ℚ) ^ (53 : ℕ) * ulp x := by
  have e1 : (2 : ℚ) ^ (52 : ℕ) * ulp x = ((2 : ℕ) : ℚ) ^ (Int.log 2 x) := by
    unfold ulp
    rw [abs_of_pos h, ← zpow_natCast, ← zpow_add₀ (by norm_num)]
    norm_num
  have e2 : (2 : ℚ) ^ (53 : ℕ) * ulp x = ((2 : ℕ) : ℚ) ^ (Int.log 2 x + 1) := by
    unfold ulp
    rw [abs_of_pos h, ← zpow_natCast, ← zpow_add₀ (by norm_num)]
    have e : ((53 : ℕ) : ℤ) + (Int.log 2 x - 52) = Int.log 2 x + 1 := by push_cast; ring
    rw [e]; norm_num
  rw [e1, e2]
  exact ⟨Int.zpow_log_le_self (by norm_num) h, Int.lt_zpow_succ_log_self (by norm_num) x⟩

/-- Rounding to `double` has relative error at most `2 ^ -53`. -/
theorem fl_err (x : ℚ) (h : 0 < x) : |fl x - x| ≤ x / 2 ^ (53 : ℕ) := by
  have hu := ulp_pos x
  have hb := (ulp_bounds x h).1
  have hr := rne_err (x / ulp x)
  rw [fl_of_pos x h]
  have e : (rne (x / ulp x) : ℚ) * ulp x - x = ((rne (x / ulp x) : ℚ) - x / ulp x) * ulp x := by
    field_simp
  rw [e, abs_mul, abs_of_pos hu]
  have : |(rne (x / ulp x) : ℚ) - x / ulp x| * ulp x ≤ 1 / 2 * ulp x :=
    mul_le_mul_of_nonneg_right hr hu.le
  rw [le_div_iff₀ (by positivity)]
  norm_num at hb ⊢
  nlinarith

theorem fl_ge_pow (x : ℚ) (h : 0 < x) : (2 : ℚ) ^ (52 : ℕ) * ulp x ≤ fl x := by
  have hu := ulp_pos x
  have hb := (ulp_bounds x h).1
  rw [fl_of_pos x h]
  have h1 : (((2 : ℤ) ^ (52 : ℕ) : ℤ) : ℚ) ≤ x / ulp x := by
    rw [le_div_iff₀ hu]; push_cast; exact hb
  have h2 := rne_ge_of_le _ _ h1
  have h3 : (((2 : ℤ) ^ (52 : ℕ) : ℤ) : ℚ) ≤ (rne (x / ulp x) : ℚ) := by exact_mod_cast h2
  push_cast at h3
  exact mul_le_mul_of_nonneg_right h3 hu.le

theorem fl_ge_one (x : ℚ) (h : 1 ≤ x) : 1 ≤ fl x := by
  have hx : 0 < x := by linarith
  have h0 : (0 : ℤ) ≤ Int.log 2 x := by
    rw [← Int.zpow_le_iff_le_log (by norm_num) hx]; simpa using h
  have h1 := fl_ge_pow x hx
  have e1 : (2 : ℚ) ^ (52 : ℕ) * ulp x = (2 : ℚ) ^ (Int.log 2 x) := by
    unfold ulp
    rw [abs_of_pos hx, ← zpow_natCast, ← zpow_add₀ (by norm_num)]
    norm_num
  rw [e1] at h1
  have : (1 : ℚ) ≤ (2 : ℚ) ^ (Int.log 2 x) := one_le_zpow₀ (by norm_num) h0
  linarith

theorem fl_pos (x : ℚ) (h : 0 < x) : 0 < fl x := by
  have := fl_ge_pow x h
  have := ulp_pos x
  have : 0 < (2 : ℚ) ^ (52 : ℕ) * ulp x := by positivity
  linarith


theorem log_eq_of (x : ℚ) (e : ℤ) (hx : 0 < x) (h1 : (2 : ℚ) ^ e ≤ x)
    (h2 : x < (2 : ℚ) ^ (e + 1)) : Int.log 2 x = e := by
  have a : e ≤ Int.log 2 x := by
    rw [← Int.zpow_le_iff_le_log (by norm_num) hx]; simpa using h1
  have b : Int.log 2 x < e + 1 := by
    rw [← Int.lt_zpow_iff_log_lt (by norm_num) hx]; simpa using h2
  omega

/-- Evaluation of `fl` from the exponent `e` and the significand `n`. -/
theorem fl_eq_of (x : ℚ) (e n : ℤ) (hx : 0 < x) (h1 : (2 : ℚ) ^ e ≤ x)
    (h2 : x < (2 : ℚ) ^ (e + 1)) (h : |x / (2 : ℚ) ^ (e - 52) - (n : ℚ)| < 1 / 2) :
    fl x = (n : ℚ) * (2 : ℚ) ^ (e - 52) := by
  have hu : ulp x = (2 : ℚ) ^ (e - 52) := by
    unfold ulp; rw [abs_of_pos hx, log_eq_of x e hx h1 h2]
  rw [fl_of_pos x hx, hu, rne_eq_of_abs_lt _ n h]

theorem cvtInt_of_nonneg (q : ℚ) (h0 : 0 ≤ q) (h1 : ⌊q⌋ < 2147483648) : cvtInt q = ⌊q⌋ := by
  have hf0 : 0 ≤ ⌊q⌋ := Int.floor_nonneg.2 h0
  rw [Rat.floor_def] at h1 hf0 ⊢
  have hd : (0 : ℤ) ≤ (q.den : ℤ) := by exact_mod_cast Nat.zero_le _
  have hn : 0 ≤ q.num := Rat.num_nonneg.2 h0
  unfold cvtInt
  rw [Int.tdiv_eq_ediv hn hd]
  simp only
  rw [if_pos ⟨by omega, h1⟩]

/-- The two roundings of `s * (m / 1000.0)` move the result by less than `1/2000`. -/
theorem ms_double_err (s m : ℤ) (hs : 0 < s) (hm : 0 < m)
    (hr : s * m < 2147483648 * 1000) :
    0 < dmul (s : ℚ) (ddiv (m : ℚ) 1000)
      ∧ |dmul (s : ℚ) (ddiv (m : ℚ) 1000) - (s : ℚ) * (m : ℚ) / 1000| < 1 / 2000 := by
  have hsq : (0 : ℚ) < (s : ℚ) := by exact_mod_cast hs
  have hmq : (0 : ℚ) < (m : ℚ) := by exact_mod_cast hm
  have hrq : (s : ℚ) * (m : ℚ) < 2147483648 * 1000 := by exact_mod_cast hr
  have hx : (0 : ℚ) < (m : ℚ) / 1000 := by positivity
  have h1 := fl_err _ hx
  have hd1 := fl_pos _ hx
  have hy : (0 : ℚ) < (s : ℚ) * fl ((m : ℚ) / 1000) := by positivity
  have h2 := fl_err _ hy
  have hd2 := fl_pos _ hy
  unfold dmul ddiv
  refine ⟨hd2, ?_⟩
  rw [abs_le] at h1 h2
  rw [abs_lt]
  norm_num at h1 h2 ⊢
  obtain ⟨h1a, h1b⟩ := h1
  obtain ⟨h2a, h2b⟩ := h2
  have ha := mul_le_mul_of_nonneg_left h1a hsq.le
  have hb := mul_le_mul_of_nonneg_left h1b hsq.le
  constructor <;> nlinarith

/-- The `(int)` of the `double` expression `s * (m / 1000.0)` is the truncation of
the exact quotient `s * m / 1000`, or one less. -/
theorem ms_floor_bounds (s m : ℤ) (hs : 0 < s) (hm : 0 < m)
    (hr : s * m < 2147483648 * 1000) :
    cvtInt (dmul (s : ℚ) (ddiv (m : ℚ) 1000)) = ⌊dmul (s : ℚ) (ddiv (m : ℚ) 1000)⌋
      ∧ s * m / 1000 - 1 ≤ cvtInt (dmul (s : ℚ) (ddiv (m : ℚ) 1000))
      ∧ cvtInt (dmul (s : ℚ) (ddiv (m : ℚ) 1000)) ≤ s * m / 1000 := by
  obtain ⟨h0, he⟩ := ms_double_err s m hs hm hr
  rw [abs_lt] at he
  obtain ⟨he1, he2⟩ := he
  have hk1 : ((s * m / 1000 : ℤ) : ℚ) ≤ (s : ℚ) * (m : ℚ) / 1000 := by
    rw [le_div_iff₀ (by norm_num)]
    have : s * m / 1000 * 1000 ≤ s * m := Int.ediv_mul_le _ (by norm_num)
    exact_mod_cast this
  have hk2 : (s : ℚ) * (m : ℚ) / 1000 ≤ ((s * m / 1000 : ℤ) : ℚ) + 999 / 1000 := by
    rw [div_le_iff₀ (by norm_num)]
    have : s * m ≤ (s * m / 1000) * 1000 + 999 := by omega
    have h' : ((s * m : ℤ) : ℚ) ≤ (((s * m / 1000) * 1000 + 999 : ℤ) : ℚ) := by
      exact_mod_cast this
    push_cast at h' ⊢
    linarith
  have hk3 : s * m / 1000 < 2147483648 := by omega
  have hlo : s * m / 1000 - 1 ≤ ⌊dmul (s : ℚ) (ddiv (m : ℚ) 1000)⌋ := by
    rw [Int.le_floor]; push_cast; linarith
  have hhi : ⌊dmul (s : ℚ) (ddiv (m : ℚ) 1000)⌋ ≤ s * m / 1000 := by
    have : ⌊dmul (s : ℚ) (ddiv (m : ℚ) 1000)⌋ < s * m / 1000 + 1 := by
      rw [Int.floor_lt]; push_cast; linarith
    omega
  have e := cvtInt_of_nonneg _ h0.le (by omega)
  rw [e]
  exact ⟨rfl, hlo, hhi⟩


theorem divisors_1000 (s m : ℤ) (hs : 0 < s) (hm : 0 < m) (h : s * m = 1000) :
    m = 1 ∨ m = 2 ∨ m = 4 ∨ m = 5 ∨ m = 8 ∨ m = 10 ∨ m = 20 ∨ m = 25 ∨ m = 40 ∨ m = 50 ∨ m = 100 ∨ m = 125 ∨ m = 200 ∨ m = 250 ∨ m = 500 ∨ m = 1000 := by
  by_cases hc : m ≤ 31
  · interval_cases m <;> omega
  · have h1 : s ≤ 31 := by nlinarith
    interval_cases s <;> omega

/-- The quotient `m / 1000.0` is not rounded down when `m` divides 1000. -/
theorem ddiv_1000_ge (m : ℤ)
    (h : m = 1 ∨ m = 2 ∨ m = 4 ∨ m = 5 ∨ m = 8 ∨ m = 10 ∨ m = 20 ∨ m = 25 ∨ m = 40 ∨ m = 50 ∨ m = 100 ∨ m = 125 ∨ m = 200 ∨ m = 250 ∨ m = 500 ∨ m = 1000) :
    (m : ℚ) / 1000 ≤ ddiv (m : ℚ) 1000 := by
  unfold ddiv
  rcases h with rfl | rfl | rfl | rfl | rfl | rfl | rfl | rfl | rfl | rfl | rfl | rfl | rfl | rfl | rfl | rfl
  · rw [fl_eq_of _ (-10) 4611686018427388 (by norm_num) (by norm_num) (by norm_num)
      (by rw [abs_lt]; constructor <;> norm_num)]
    norm_num
  · rw [fl_eq_of _ (-9) 4611686018427388 (by norm_num) (by norm_num) (by norm_num)
      (by rw [abs_lt]; constructor <;> norm_num)]
    norm_num
  · rw [fl_eq_of _ (-8) 4611686018427388 (by norm_num) (by norm_num) (by norm_num)
      (by rw [abs_lt]; constructor <;> norm_num)]
    norm_num
  · rw [fl_eq_of _ (-8) 5764607523034235 (by norm_num) (by norm_num) (by norm_num)
      (by rw [abs_lt]; constructor <;> norm_num)]
    norm_num
  · rw [fl_eq_of _ (-7) 4611686018427388 (by norm_num) (by norm_num) (by norm_num)
      (by rw [abs_lt]; constructor <;> norm_num)]
    norm_num
  · rw [fl_eq_of _ (-7) 5764607523034235 (by norm_num) (by norm_num) (by norm_num)
      (by rw [abs_lt]; constructor <;> norm_num)]
    norm_num
  · rw [fl_eq_of _ (-6) 5764607523034235 (by norm_num) (by norm_num) (by norm_num)
      (by rw [abs_lt]; constructor <;> norm_num)]
    norm_num
  · rw [fl_eq_of _ (-6) 7205759403792794 (by norm_num) (by norm_num) (by norm_num)
      (by rw [abs_lt]; constructor <;> norm_num)]
    norm_num
  · rw [fl_eq_of _ (-5) 5764607523034235 (by norm_num) (by norm_num) (by norm_num)
      (by rw [abs_lt]; constructor <;> norm_num)]
    norm_num
  · rw [fl_eq_of _ (-5) 7205759403792794 (by norm_num) (by norm_num) (by norm_num)
      (by rw [abs_lt]; constructor <;> norm_num)]
    norm_num
  · rw [fl_eq_of _ (-4) 7205759403792794 (by norm_num) (by norm_num) (by norm_num)
      (by rw [abs_lt]; constructor <;> norm_num)]
    norm_num
  · rw [fl_eq_of _ (-3) 4503599627370496 (by norm_num) (by norm_num) (by norm_num)
      (by rw [abs_lt]; constructor <;> norm_num)]
    norm_num
  · rw [fl_eq_of _ (-3) 7205759403792794 (by norm_num) (by norm_num) (by norm_num)
      (by rw [abs_lt]; constructor <;> norm_num)]
    norm_num
  · rw [fl_eq_of _ (-2) 4503599627370496 (by norm_num) (by norm_num) (by norm_num)
      (by rw [abs_lt]; constructor <;> norm_num)]
    norm_num
  · rw [fl_eq_of _ (-1) 4503599627370496 (by norm_num) (by norm_num) (by norm_num)
      (by rw [abs_lt]; constructor <;> norm_num)]
    norm_num
  · rw [fl_eq_of _ (0) 4503599627370496 (by norm_num) (by norm_num) (by norm_num)
      (by rw [abs_lt]; constructor <;> norm_num)]
    norm_num

/-- The `(int)` of `s * (m / 1000.0)` is at least 1 when `s * m ≥ 1000`. -/
theorem ms_ge_one (s m : ℤ) (hs : 0 < s) (hp : 1000 ≤ s * m)
    (hr : s * m < 2147483648 * 1000) :
    1 ≤ cvtInt (dmul (s : ℚ) (ddiv (m : ℚ) 1000)) := by
  have hm : 0 < m := by
    by_contra hc
    have : s * m ≤ 0 := Int.mul_nonpos_of_nonneg_of_nonpos hs.le (by omega)
    omega
  obtain ⟨e, hlo, hhi⟩ := ms_floor_bounds s m hs hm hr
  by_cases h1 : s * m = 1000
  · rw [e, Int.le_floor]
    have hsq : (0 : ℚ) < (s : ℚ) := by exact_mod_cast hs
    have hd := ddiv_1000_ge m (divisors_1000 s m hs hm h1)
    have hq : (s : ℚ) * (m : ℚ) = 1000 := by exact_mod_cast h1
    have hy : (1 : ℚ) ≤ (s : ℚ) * ddiv (m : ℚ) 1000 := by
      have := mul_le_mul_of_nonneg_left hd hsq.le
      linarith
    push_cast
    exact fl_ge_one _ hy
  · obtain ⟨_, he⟩ := ms_double_err s m hs hm hr
    rw [abs_lt] at he
    have hq : ((1001 : ℤ) : ℚ) ≤ ((s * m : ℤ) : ℚ) := by
      exact_mod_cast (show (1001 : ℤ) ≤ s * m by omega)
    push_cast at hq
    rw [e, Int.le_floor]
    push_cast
    linarith [he.1]

/-- At 44100 Hz, 350 ms come out as 15434 samples: `350 / 1000.0` is rounded down
and the product lands just below 15435. -/
theorem ms_350_at_44100 :
    cvtInt (dmul ((44100 : ℤ) : ℚ) (ddiv ((350 : ℤ) : ℚ) 1000)) = 15434 := by
  have e1 : ddiv ((350 : ℤ) : ℚ) 1000 = 6305039478318694 * (2 : ℚ) ^ (-54 : ℤ) := by
    unfold ddiv
    rw [fl_eq_of _ (-2) 6305039478318694 (by norm_num) (by norm_num) (by norm_num)
      (by rw [abs_lt]; constructor <;> norm_num)]
    norm_num
  have e2 : dmul ((44100 : ℤ) : ℚ) (ddiv ((350 : ℤ) : ℚ) 1000)
      = 8485480987361279 * (2 : ℚ) ^ (-39 : ℤ) := by
    unfold dmul
    rw [e1, fl_eq_of _ 13 8485480987361279 (by norm_num) (by norm_num) (by norm_num)
      (by rw [abs_lt]; constructor <;> norm_num)]
    norm_num
  rw [e2, cvtInt_of_nonneg _ (by norm_num) (by rw [Int.floor_lt]; norm_num)]
  rw [Int.floor_eq_iff]
  constructor <;> norm_num

/-- At 500 Hz, 1 ms comes out as 0 samples. -/
theorem ms_1_at_500 : cvtInt (dmul ((500 : ℤ) : ℚ) (ddiv ((1 : ℤ) : ℚ) 1000)) = 0 := by
  obtain ⟨e, hlo, hhi⟩ := ms_floor_bounds 500 1 (by norm_num) (by norm_num) (by norm_num)
  obtain ⟨h0, _⟩ := ms_double_err 500 1 (by norm_num) (by norm_num) (by norm_num)
  have h2 := Int.floor_nonneg.2 h0.le
  rw [← e] at h2
  have hh : (500 : ℤ) * 1 / 1000 = 0 := by decide
  rw [hh] at hhi
  omega

/-! ## The control tick -/

theorem wrap32_of_range (x : ℤ) (h0 : -2147483648 ≤ x) (h1 : x < 2147483648) :
    wrap32 x = x := by
  unfold wrap32; omega

theorem SetFilter_frame (dsp : DspLib) (t : CTrack) :
    (SetFilter dsp t).Unit = t.Unit ∧ (SetFilter dsp t).Length = t.Length
      ∧ (SetFilter dsp t).Pos = t.Pos := by
  simp only [SetFilter]
  split_ifs <;> exact ⟨rfl, rfl, rfl⟩

theorem tickFilter_frame (dsp : DspLib) (pt : CTrack) (v : tvals) :
    (tickFilter dsp pt v).Unit = pt.Unit ∧ (tickFilter dsp pt v).Length = pt.Length
      ∧ (tickFilter dsp pt v).Pos = pt.Pos := by
  unfold tickFilter
  by_cases h1 : (v.filtertype : ℤ) = paraFilterType.NoValue <;>
  by_cases h2 : (v.filtercutoff : ℤ) = paraFilterCutoff.NoValue <;>
  by_cases h3 : (v.filterbw : ℤ) = paraFilterBandwidth.NoValue <;>
  simp only [h1, h2, h3, ne_eq, not_true_eq_false, not_false_eq_true, ↓reduceIte] <;>
  first
    | exact ⟨rfl, rfl, rfl⟩
    | exact SetFilter_frame dsp _

theorem tickFilter_Unit (dsp : DspLib) (pt : CTrack) (v : tvals) :
    (tickFilter dsp pt v).Unit = pt.Unit := (tickFilter_frame dsp pt v).1

theorem tickFilter_Length (dsp : DspLib) (pt : CTrack) (v : tvals) :
    (tickFilter dsp pt v).Length = pt.Length := (tickFilter_frame dsp pt v).2.1

theorem tickFilter_Pos (dsp : DspLib) (pt : CTrack) (v : tvals) :
    (tickFilter dsp pt v).Pos = pt.Pos := (tickFilter_frame dsp pt v).2.2

theorem tickGains_Length (pt : CTrack) (v : tvals) : (tickGains pt v).Length = pt.Length := by
  simp only [tickGains]; split_ifs <;> rfl

theorem tickGains_Pos (pt : CTrack) (v : tvals) : (tickGains pt v).Pos = pt.Pos := by
  simp only [tickGains]; split_ifs <;> rfl

theorem lengthFromUnit_Pos (info : CMasterInfo) (pt : CTrack) (l : ℕ) :
    (lengthFromUnit info pt l).Pos = pt.Pos := by
  simp only [lengthFromUnit]; split_ifs <;> rfl

theorem lengthFromUnit_Length (info : CMasterInfo) (pt : CTrack) (l : ℕ) :
    (lengthFromUnit info pt l).Length = convLength info pt.Unit pt.Length l := by
  simp only [lengthFromUnit, convLength]
  split_ifs with h1 h2 h3 h4 h5 h6
  · rw [max_eq_left (by omega)]
  · rw [max_eq_right (by omega)]
  · rfl
  · rfl
  · rw [max_eq_left (by omega)]
  · rw [max_eq_right (by omega)]
  · rfl

theorem lengthFromUnit_Unit (info : CMasterInfo) (pt : CTrack) (l : ℕ) :
    (lengthFromUnit info pt l).Unit = pt.Unit := by
  simp only [lengthFromUnit]; split_ifs <;> rfl

theorem capped_Length (t : CTrack) (M : ℤ) :
    (if t.Length > M then { t with Length := M } else t).Length = min t.Length M := by
  split_ifs with h
  · show M = min t.Length M
    exact (min_eq_right (by omega)).symm
  · exact (min_eq_left (by omega)).symm

theorem capped_Pos (t : CTrack) (M : ℤ) :
    (if t.Length > M then { t with Length := M } else t).Pos = t.Pos := by
  split_ifs <;> rfl

theorem reset_Length (t : CTrack) :
    (if t.Pos ≥ t.Length then { t with Pos := 0 } else t).Length = t.Length := by
  split_ifs <;> rfl

theorem reset_Pos (t : CTrack) :
    (if t.Pos ≥ t.Length then { t with Pos := 0 } else t).Pos
      = if t.Pos ≥ t.Length then 0 else t.Pos := by
  split_ifs <;> rfl

/-- The length part of a tick that carries a length: the length under the unit
in effect, capped at `MaxDelay`. -/
theorem tickLength_Length (info : CMasterInfo) (M : ℤ) (t : CTrack) (v : tvals)
    (hl : (v.length : ℤ) ≠ paraLength.NoValue) :
    (tickLength info M t v).Length
      = min (convLength info (unitInEffect t v) t.Length v.length) M := by
  unfold tickLength
  simp only [if_pos hl]
  rw [reset_Length, capped_Length, lengthFromUnit_Length, unitInEffect]
  split_ifs <;> rfl

/-- The cursor after the length part of a tick: reset to 0 when it is at or beyond
the new length, unchanged otherwise. -/
theorem tickLength_Pos (info : CMasterInfo) (M : ℤ) (t : CTrack) (v : tvals) :
    (tickLength info M t v).Pos
      = if t.Pos ≥ (tickLength info M t v).Length then 0 else t.Pos := by
  unfold tickLength
  simp only []
  rw [reset_Length, reset_Pos]
  have hp : ∀ u : CTrack, u.Pos = t.Pos →
      (if u.Length > M then { u with Length := M } else u).Pos = t.Pos := by
    intro u hu; rw [capped_Pos, hu]
  split_ifs <;> simp_all [capped_Pos, lengthFromUnit_Pos]

/-- The length a tick leaves: the length under the unit in effect, capped. -/
theorem TickTrack_Length (dsp : DspLib) (info : CMasterInfo) (M : ℤ) (pt : CTrack) (v : tvals)
    (hl : (v.length : ℤ) ≠ paraLength.NoValue) :
    (TickTrack dsp info M pt v).Length
      = min (convLength info (unitInEffect pt v) pt.Length v.length) M := by
  rw [TickTrack, tickGains_Length, tickLength_Length info M _ v hl, tickFilter_Length]
  simp only [unitInEffect, tickFilter_Unit]

/-- The cursor a tick leaves. -/
theorem TickTrack_Pos (dsp : DspLib) (info : CMasterInfo) (M : ℤ) (pt : CTrack) (v : tvals) :
    (TickTrack dsp info M pt v).Pos
      = if pt.Pos ≥ (TickTrack dsp info M pt v).Length then 0 else pt.Pos := by
  rw [TickTrack, tickGains_Pos, tickGains_Length, tickLength_Pos, tickFilter_Pos]

/-- Unit conversion where the `int` products fit. For every tick whose length field
carries a real value `L`, the new `Length` is computed from `L` under the unit in
effect after this tick's own unit update, then capped at `MaxDelay`: sample gives
`L`; tick gives `SamplesPerTick * L` and 1/256-tick gives
`max(1, floor(SamplesPerTick * L / 256))` when the product fits in a 32-bit `int`;
millisecond gives `max(1, (int)(SamplesPerSec * (L / 1000.0)))`, the converted
`double` being `floor(SamplesPerSec * L / 1000)` or one less. With
`SamplesPerTick = 512`, `L = 1` and `MaxDelay ≥ 512`: tick yields 512, sample yields
1, 1/256-tick yields 2. -/
theorem TickTrack_unit_conversion (dsp : DspLib) (info : CMasterInfo) (M : ℤ) (pt : CTrack)
    (v : tvals) (hl : (v.length : ℤ) ≠ paraLength.NoValue) :
    (unitInEffect pt v = UNIT_TICK →
        -2147483648 ≤ info.SamplesPerTick * (v.length : ℤ) →
        info.SamplesPerTick * (v.length : ℤ) < 2147483648 →
        (TickTrack dsp info M pt v).Length = min (info.SamplesPerTick * (v.length : ℤ)) M)
      ∧ (unitInEffect pt v = UNIT_SAMPLE →
        (TickTrack dsp info M pt v).Length = min (v.length : ℤ) M)
      ∧ (unitInEffect pt v = UNIT_256 →
        -2147483648 ≤ info.SamplesPerTick * (v.length : ℤ) →
        info.SamplesPerTick * (v.length : ℤ) < 2147483648 →
        (TickTrack dsp info M pt v).Length
          = min (max 1 (info.SamplesPerTick * (v.length : ℤ) / 256)) M)
      ∧ (unitInEffect pt v = UNIT_MS →
        0 < info.SamplesPerSec → 0 < (v.length : ℤ) →
        info.SamplesPerSec * (v.length : ℤ) < 2147483648 * 1000 →
        (TickTrack dsp info M pt v).Length
            = min (max 1 (cvtInt (dmul (info.SamplesPerSec : ℚ) (ddiv (v.length : ℚ) 1000)))) M
          ∧ info.SamplesPerSec * (v.length : ℤ) / 1000 - 1
              ≤ cvtInt (dmul (info.SamplesPerSec : ℚ) (ddiv (v.length : ℚ) 1000))
          ∧ cvtInt (dmul (info.SamplesPerSec : ℚ) (ddiv (v.length : ℚ) 1000))
              ≤ info.SamplesPerSec * (v.length : ℤ) / 1000)
      ∧ (info.SamplesPerTick = 512 → v.length = 1 → 512 ≤ M →
        (unitInEffect pt v = UNIT_TICK → (TickTrack dsp info M pt v).Length = 512)
          ∧ (unitInEffect pt v = UNIT_SAMPLE → (TickTrack dsp info M pt v).Length = 1)
          ∧ (unitInEffect pt v = UNIT_256 → (TickTrack dsp info M pt v).Length = 2)) := by
  rw [TickTrack_Length dsp info M pt v hl]
  refine ⟨?_, ?_, ?_, ?_, ?_⟩
  · intro hu h0 h1
    rw [hu]
    simp only [convLength, UNIT_TICK, UNIT_MS, UNIT_SAMPLE]
    norm_num
    rw [wrap32_of_range _ h0 h1]
  · intro hu
    rw [hu]
    simp only [convLength, UNIT_MS, UNIT_SAMPLE]
    norm_num
  · intro hu h0 h1
    rw [hu]
    simp only [convLength, UNIT_TICK, UNIT_MS, UNIT_SAMPLE, UNIT_256]
    norm_num
    rw [wrap32_of_range _ h0 h1]
  · intro hu h0 h1 hr
    rw [hu]
    simp only [convLength, if_true]
    have hb := ms_floor_bounds info.SamplesPerSec (v.length : ℤ) h0 h1 hr
    rw [Int.cast_natCast] at hb
    exact ⟨trivial, hb.2.1, hb.2.2⟩
  · intro hs hv hM
    refine ⟨?_, ?_, ?_⟩
    · intro hu
      rw [hu]
      simp only [convLength, UNIT_TICK, UNIT_MS, UNIT_SAMPLE, hs, hv]
      norm_num [wrap32]
      omega
    · intro hu
      rw [hu]
      simp only [convLength, UNIT_MS, UNIT_SAMPLE, hv]
      norm_num
      omega
    · intro hu
      rw [hu]
      simp only [convLength, UNIT_TICK, UNIT_MS, UNIT_SAMPLE, UNIT_256, hs, hv]
      norm_num [wrap32]
      omega

theorem TickTrack_unit_conversion_witness :
    (TickTrack idDsp host512 44100 track0 oneTick).Length = 512 :=
  ((TickTrack_unit_conversion idDsp host512 44100 track0 oneTick (by decide)).2.2.2.2
    rfl rfl (by decide)).1 (by decide)

/-- At 44100 Hz a tick carrying the unit ms and the length 350 leaves
`Length = 15434`, one less than `floor(44100 * 350 / 1000) = 15435`. -/
theorem TickTrack_ms_350 :
    unitInEffect track0 msTick = UNIT_MS
      ∧ (TickTrack idDsp host512 44100 track0 msTick).Length = 15434
      ∧ host512.SamplesPerSec * (msTick.length : ℤ) / 1000 = 15435 := by
  refine ⟨by decide, ?_, by decide⟩
  rw [TickTrack_Length idDsp host512 44100 track0 msTick (by decide)]
  have e : convLength host512 (unitInEffect track0 msTick) track0.Length msTick.length
      = max 1 (cvtInt (dmul ((44100 : ℤ) : ℚ) (ddiv ((350 : ℤ) : ℚ) 1000))) := by
    simp [convLength, unitInEffect, msTick, noVals, host512, UNIT_MS, paraUnit]
  rw [e, ms_350_at_44100]
  decide

/-- C3, the failing run: at 165375 samples per tick (44.1 kHz, 16 BPM, one tick
per beat) a tick carrying the length 13000 under unit tick leaves
`Length = -2145092296`, not `SamplesPerTick * L` capped at `MaxDelay = 44100`: the
`int` product `165375 * 13000` does not fit in 32 bits. -/
theorem TickTrack_tick_product_wraps :
    unitInEffect track0 longTick = UNIT_TICK
      ∧ (TickTrack idDsp hostSlow 44100 track0 longTick).Length = -2145092296
      ∧ min (hostSlow.SamplesPerTick * (longTick.length : ℤ)) 44100 = 44100 := by
  refine ⟨by decide, ?_, by decide⟩
  rw [TickTrack_Length idDsp hostSlow 44100 track0 longTick (by decide)]
  decide

/-- C4, the failing run: with `SamplesPerTick = 165375 ≥ 1`, `SamplesPerSec = 44100`,
`MaxDelay = 44100 ≥ 1`, unit tick and the length value 13000 of the declared range
`[1, 32768]`, `TickTrack` leaves `Length = -2145092296 < 1`. -/
theorem TickTrack_Length_below_one :
    1 ≤ hostSlow.SamplesPerTick ∧ 1 ≤ hostSlow.SamplesPerSec
      ∧ paraLength.MinValue ≤ (longTick.length : ℤ)
      ∧ (longTick.length : ℤ) ≤ paraLength.MaxValue
      ∧ (TickTrack idDsp hostSlow 44100 track0 longTick).Unit = UNIT_TICK
      ∧ (TickTrack idDsp hostSlow 44100 track0 longTick).Length = -2145092296 := by
  refine ⟨by decide, by decide, by decide, by decide, ?_, ?_⟩
  · rfl
  · rw [TickTrack_Length idDsp hostSlow 44100 track0 longTick (by decide)]
    decide

/-! ## The cursor -/

/-- C5. Cursor invariant. A tick that leaves `Length ≥ 1` on a track whose cursor
is not negative leaves `0 ≤ Pos < Length`, the cursor reset to 0 when the old
`Pos` is at or beyond the new `Length` and unchanged otherwise; `WorkTrack` on a
track with `0 ≤ Pos < Length` returns, for every mode and every
`numsamples ≥ 0`, with `0 ≤ Pos < Length` and `Length` as it was; `InitTrack` sets
`Pos = 0`. -/
theorem cursor_invariant (dsp : DspLib) (info : CMasterInfo) (M : ℤ) (pt : CTrack) (v : tvals)
    (pin pout : Mem) (numsamples : ℤ) (mode : ℕ) :
    (0 ≤ pt.Pos → 1 ≤ (TickTrack dsp info M pt v).Length →
        0 ≤ (TickTrack dsp info M pt v).Pos
          ∧ (TickTrack dsp info M pt v).Pos < (TickTrack dsp info M pt v).Length
          ∧ (TickTrack dsp info M pt v).Pos
              = if pt.Pos ≥ (TickTrack dsp info M pt v).Length then 0 else pt.Pos)
      ∧ (0 ≤ pt.Pos → pt.Pos < pt.Length → 0 ≤ numsamples →
        ∃ r, WorkTrack pt pin pout numsamples mode = some r
          ∧ 0 ≤ r.1.Pos ∧ r.1.Pos < r.1.Length ∧ r.1.Length = pt.Length)
      ∧ (InitTrack M pt).Pos = 0 := by
  refine ⟨?_, ?_, ?_⟩
  · intro h0 hL
    have hP := TickTrack_Pos dsp info M pt v
    refine ⟨?_, ?_, hP⟩
    · rw [hP]; split_ifs <;> omega
    · rw [hP]; split_ifs <;> omega
  · intro h0 h1 hn
    obtain ⟨n, rfl⟩ : ∃ n : ℕ, numsamples = (n : ℤ) := ⟨numsamples.toNat, by omega⟩
    refine ⟨_, WorkTrack_eq pt pin pout n mode h0 h1, ?_⟩
    have hB := WorkSamples_Pos_bounds pin mode n pt 0 pout 0 h0 h1
    have hL := WorkSamples_Length pin mode n pt 0 pout 0
    exact ⟨hB.1, by rw [hL]; exact hB.2, hL⟩
  · simp only [InitTrack]
    split_ifs <;> rfl

theorem cursor_invariant_witness :
    (∃ r, WorkTrack delay3 ramp zeroMem 7 WM_READWRITE = some r
        ∧ 0 ≤ r.1.Pos ∧ r.1.Pos < r.1.Length ∧ r.1.Length = delay3.Length)
      ∧ 0 ≤ (TickTrack idDsp host512 44100 track0 oneTick).Pos :=
  ⟨(cursor_invariant idDsp host512 44100 delay3 oneTick ramp zeroMem 7 WM_READWRITE).2.1
      (by decide) (by decide) (by decide),
    ((cursor_invariant idDsp host512 44100 track0 oneTick ramp zeroMem 7 WM_READWRITE).1
      (by decide)
      (by rw [TickTrack_Length idDsp host512 44100 track0 oneTick (by decide)]; decide)).1⟩

/-! ## `Work`: the track loop -/

theorem TracksOK_cons (n : ℕ) (t : CTrack) (ts : List CTrack) :
    TracksOK (n + 1) (t :: ts) ↔ (0 ≤ t.Pos ∧ t.Pos < t.Length) ∧ TracksOK n ts := by
  simp [TracksOK]

theorem WorkTracks_eq (pin : Mem) (k mode : ℕ) (n : ℕ) : ∀ (ts : List CTrack) (pout : Mem),
    TracksOK n ts →
    WorkTracks n ts pin pout (k : ℤ) mode = some (WorkTracksSamples n ts pin pout k mode) := by
  induction n with
  | zero => intro ts pout _; rfl
  | succ j ih =>
    intro ts pout h
    cases ts with
    | nil => rfl
    | cons t ts =>
      rw [TracksOK_cons] at h
      rw [WorkTracks, WorkTrack_eq t pin pout k mode h.1.1 h.1.2]
      simp only []
      rw [ih ts _ h.2]
      rfl

theorem clearBuffers_OK (n : ℕ) : ∀ (ts : List CTrack), TracksOK n ts →
    TracksOK n (clearBuffers n ts) := by
  induction n with
  | zero => intro ts h; simp [TracksOK]
  | succ j ih =>
    intro ts h
    cases ts with
    | nil => simp [TracksOK, clearBuffers]
    | cons t ts =>
      rw [TracksOK_cons] at h
      rw [clearBuffers, TracksOK_cons]
      exact ⟨h.1, ih ts h.2⟩

/-! ## `Work`: idle and resume -/

theorem WorkIdle_read (m : mi) (n : ℤ) (mode : ℕ) (h : mode &&& WM_READ ≠ 0) :
    WorkIdle m n mode = some { m with IdleMode := false, IdleCount := 0 } := by
  simp [WorkIdle, h]

theorem WorkIdle_idle (m : mi) (n : ℤ) (mode : ℕ) (h : mode &&& WM_READ = 0)
    (hi : m.IdleMode = true) : WorkIdle m n mode = none := by
  simp [WorkIdle, h, hi]

theorem WorkIdle_below (m : mi) (n : ℤ) (mode : ℕ) (h : mode &&& WM_READ = 0)
    (hi : m.IdleMode = false) (hb : m.IdleCount + n < m.DelayTime + MAX_BUFFER_LENGTH) :
    WorkIdle m n mode = some { m with IdleCount := m.IdleCount + n } := by
  have hb2 : ¬ (m.DelayTime + MAX_BUFFER_LENGTH ≤ m.IdleCount + n) := by omega
  simp [WorkIdle, h, hi, hb2]

theorem WorkIdle_reached (m : mi) (n : ℤ) (mode : ℕ) (h : mode &&& WM_READ = 0)
    (hi : m.IdleMode = false) (hb : m.IdleCount + n ≥ m.DelayTime + MAX_BUFFER_LENGTH) :
    WorkIdle m n mode
      = some { m with IdleCount := m.IdleCount + n,
                      Tracks := clearBuffers m.numTracks m.Tracks, IdleMode := true } := by
  simp [WorkIdle, h, hi, hb]

/-- What `Work` returns once the idle bookkeeping lets the block through and the
active tracks satisfy the cursor invariant. -/
theorem Work_of_WorkIdle (m m1 : mi) (paux ps : Mem) (k : ℕ) (mode : ℕ)
    (h : WorkIdle m (k : ℤ) mode = some m1) (hok : TracksOK m1.numTracks m1.Tracks) :
    Work m paux ps (k : ℤ) mode
      = some (true,
          { m1 with Tracks := (WorkTracksSamples m1.numTracks m1.Tracks
              (WorkAux paux ps (k : ℤ) mode) (WorkDry m1.DryThru ps (k : ℤ) mode) k mode).1 },
          WorkAux paux ps (k : ℤ) mode,
          (WorkTracksSamples m1.numTracks m1.Tracks
              (WorkAux paux ps (k : ℤ) mode) (WorkDry m1.DryThru ps (k : ℤ) mode) k mode).2) := by
  rw [Work, h]
  simp only []
  rw [WorkTracks_eq _ k mode m1.numTracks m1.Tracks _ hok]

/-- C9. `Work` returns false if and only if, at entry, `IdleMode` is true and the
mode has no real-input bit; and in that case the call is a no-op: the engine (every
track's buffer, `Pos` and filter state, `IdleCount`, `IdleMode`), the aux buffer
and the sample block come back as they were. -/
theorem Work_false_iff_idle_without_input (m : mi) (paux ps : Mem) (numsamples : ℤ)
    (mode : ℕ) :
    (∀ r, Work m paux ps numsamples mode = some r →
        (r.1 = false ↔ (m.IdleMode = true ∧ mode &&& WM_READ = 0)))
      ∧ (m.IdleMode = true → mode &&& WM_READ = 0 →
        Work m paux ps numsamples mode = some (false, m, paux, ps)) := by
  constructor
  · intro r hr
    by_cases hm : mode &&& WM_READ = 0
    · cases hi : m.IdleMode with
      | true =>
        rw [Work, WorkIdle_idle m numsamples mode hm hi] at hr
        simp only [Option.some.injEq] at hr
        subst hr
        simp [hm]
      | false =>
        have hw : ∃ m1, WorkIdle m numsamples mode = some m1 := by
          by_cases hb : m.IdleCount + numsamples ≥ m.DelayTime + MAX_BUFFER_LENGTH
          · exact ⟨_, WorkIdle_reached m numsamples mode hm hi hb⟩
          · exact ⟨_, WorkIdle_below m numsamples mode hm hi (by omega)⟩
        obtain ⟨m1, hm1⟩ := hw
        rw [Work, hm1] at hr
        simp only [] at hr
        split at hr
        · exact absurd hr (by simp)
        · simp only [Option.some.injEq] at hr
          subst hr
          simp
    · rw [Work, WorkIdle_read m numsamples mode hm] at hr
      simp only [] at hr
      split at hr
      · exact absurd hr (by simp)
      · simp only [Option.some.injEq] at hr
        subst hr
        simp [hm]
  · intro hi hm
    rw [Work, WorkIdle_idle m numsamples mode hm hi]

theorem Work_false_iff_idle_without_input_witness :
    Work idleEngine zeroMem ramp 256 WM_WRITE = some (false, idleEngine, zeroMem, ramp) :=
  (Work_false_iff_idle_without_input idleEngine zeroMem ramp 256 WM_WRITE).2 rfl (by decide)

theorem track0_OK : TracksOK 1 [track0] := by
  intro t ht
  simp only [List.take_succ_cons, List.take_zero, List.mem_singleton] at ht
  subst ht
  exact ⟨by decide, by decide⟩

/-- C8. Resume: a `Work` call whose mode has the real-input bit set, from any
engine state (idle or active, any `IdleCount`), can only return true with
`IdleMode` false and `IdleCount` 0; and it does return whenever `numsamples ≥ 0`
and the active tracks satisfy the cursor invariant of the data model. -/
theorem Work_with_input_resumes (m : mi) (paux ps : Mem) (numsamples : ℤ) (mode : ℕ)
    (hm : mode &&& WM_READ ≠ 0) :
    (∀ r, Work m paux ps numsamples mode = some r →
        r.1 = true ∧ r.2.1.IdleMode = false ∧ r.2.1.IdleCount = 0)
      ∧ (0 ≤ numsamples → TracksOK m.numTracks m.Tracks →
        ∃ r, Work m paux ps numsamples mode = some r
          ∧ r.1 = true ∧ r.2.1.IdleMode = false ∧ r.2.1.IdleCount = 0) := by
  have part : ∀ r, Work m paux ps numsamples mode = some r →
      r.1 = true ∧ r.2.1.IdleMode = false ∧ r.2.1.IdleCount = 0 := by
    intro r hr
    rw [Work, WorkIdle_read m numsamples mode hm] at hr
    simp only [] at hr
    split at hr
    · exact absurd hr (by simp)
    · simp only [Option.some.injEq] at hr
      subst hr
      exact ⟨rfl, rfl, rfl⟩
  refine ⟨part, fun hn hok => ?_⟩
  obtain ⟨k, rfl⟩ : ∃ k : ℕ, numsamples = (k : ℤ) := ⟨numsamples.toNat, by omega⟩
  have hw := Work_of_WorkIdle m _ paux ps k mode (WorkIdle_read m (k : ℤ) mode hm) hok
  exact ⟨_, hw, part _ hw⟩

theorem Work_with_input_resumes_witness :
    ∃ r, Work idleEngine zeroMem ramp 256 WM_READWRITE = some r
      ∧ r.1 = true ∧ r.2.1.IdleMode = false ∧ r.2.1.IdleCount = 0 :=
  (Work_with_input_resumes idleEngine zeroMem ramp 256 WM_READWRITE (by decide)).2
    (by decide) track0_OK

theorem specStep_Flushed (pt : CTrack) (h : Flushed pt) : Flushed (specStep pt 0).1 := by
  obtain ⟨h0, h1, hB, hQ⟩ := h
  have hd : pt.Buffer pt.Pos.toNat = 0 := hB _ (by omega)
  have hw : bwOut pt.Filter 0 * pt.Feedback = 0 := by
    rcases hQ with hf | ⟨a, b, c, d⟩
    · rw [hf, mul_zero]
    · simp [bwOut, a, b, c, d]
  refine ⟨?_, ?_, ?_, ?_⟩
  · simp only [specStep]; split_ifs <;> omega
  · simp only [specStep]; split_ifs <;> omega
  · intro q hq
    simp only [specStep, poke, hd, hw, add_zero]
    split_ifs
    · rfl
    · exact hB q hq
  · rcases hQ with hf | ⟨a, b, c, d⟩
    · exact Or.inl hf
    · refine Or.inr ?_
      simp [specStep, bwShift, bwOut, hd, a, b, c, d]

theorem WorkSample_Flushed (pt : CTrack) (pin : Mem) (ip : ℕ) (pout : Mem) (io mode : ℕ)
    (hm : mode = WM_NOIO ∨ mode = WM_WRITE) (h : Flushed pt) :
    Flushed (WorkSample pt pin ip pout io mode).1 := by
  rcases hm with hm | hm
  · subst hm
    by_cases hf : pt.Feedback = 0
    · have e : (WorkSample pt pin ip pout io WM_NOIO).1
          = wrapPos { pt with Pos := pt.Pos + 1 } := by
        simp [WorkSample, dispatch, hf]
      rw [e]
      obtain ⟨h0, h1, hB, hQ⟩ := h
      simp only [wrapPos]
      split_ifs with hw
      · exact ⟨le_refl 0, by simpa using (by omega : (0 : ℤ) < pt.Length), hB, hQ⟩
      · exact ⟨by simp only []; omega, by simp only [] at hw ⊢; omega, hB, hQ⟩
    · have e : (WorkSample pt pin ip pout io WM_NOIO).1 = (specStep pt 0).1 := by
        simp [WorkSample, dispatch, hf, DoWorkNoInputNoOutput, specStep, wrapPos]
        split_ifs <;> rfl
      rw [e]
      exact specStep_Flushed pt h
  · have e := WorkSample_spec pt pin zeroMem ip pout io mode (Or.inr ⟨hm, rfl⟩)
    rw [e]
    exact specStep_Flushed pt h

theorem WorkSamples_Flushed (pin : Mem) (mode : ℕ) (hm : mode = WM_NOIO ∨ mode = WM_WRITE)
    (n : ℕ) : ∀ (pt : CTrack) (ip : ℕ) (pout : Mem) (io : ℕ), Flushed pt →
    Flushed (WorkSamples n pt pin ip pout io mode).1 := by
  induction n with
  | zero => intro pt ip pout io h; exact h
  | succ k ih =>
    intro pt ip pout io h
    rw [WorkSamples]
    exact ih _ _ _ _ (WorkSample_Flushed pt pin ip pout io mode hm h)

/-- The track at an active index after the track loop is what `WorkTrack` makes of
the track at that index before it. -/
theorem WorkTracksSamples_get (pin : Mem) (k mode : ℕ) (A B : CTrack → Prop)
    (h : ∀ t pout, A t → B (WorkSamples k t pin 0 pout 0 mode).1) (n : ℕ) :
    ∀ (ts : List CTrack) (pout : Mem) (i : ℕ) (t u : CTrack), i < n → ts[i]? = some t →
    (WorkTracksSamples n ts pin pout k mode).1[i]? = some u → A t → B u := by
  induction n with
  | zero => intro ts pout i t u hi; omega
  | succ j ih =>
    intro ts pout i t u hi ht hu hA
    cases ts with
    | nil => simp at ht
    | cons a ts =>
      rw [WorkTracksSamples] at hu
      cases i with
      | zero =>
        simp only [List.getElem?_cons_zero, Option.some.injEq] at ht hu
        subst ht hu
        exact h _ _ hA
      | succ i =>
        simp only [List.getElem?_cons_succ] at ht hu
        exact ih ts _ i t u (by omega) ht hu hA

theorem clearBuffers_get (n : ℕ) : ∀ (ts : List CTrack) (i : ℕ) (t : CTrack), i < n →
    ts[i]? = some t →
    (clearBuffers n ts)[i]? = some { t with Buffer := zeroFill t.Buffer t.Length.toNat } := by
  induction n with
  | zero => intro ts i t hi; omega
  | succ j ih =>
    intro ts i t hi ht
    cases ts with
    | nil => simp at ht
    | cons a ts =>
      rw [clearBuffers]
      cases i with
      | zero =>
        simp only [List.getElem?_cons_zero, Option.some.injEq] at ht ⊢
        subst ht
        rfl
      | succ i =>
        simp only [List.getElem?_cons_succ] at ht ⊢
        exact ih ts i t (by omega) ht

theorem TracksOK_get (n : ℕ) (ts : List CTrack) (h : TracksOK n ts) (i : ℕ) (t : CTrack)
    (hi : i < n) (ht : ts[i]? = some t) : 0 ≤ t.Pos ∧ t.Pos < t.Length := by
  apply h t
  apply List.getElem?_mem (n := i)
  rw [List.getElem?_take_of_lt hi]
  exact ht

/-- Where the flush at the idle transition holds. From an active engine whose
active tracks satisfy the cursor invariant, a silent block (mode `WM_NOIO` or
`WM_WRITE`, `numsamples ≥ 0`) that makes the silent count reach
`DelayTime + MAX_BUFFER_LENGTH` returns true with `IdleMode` true, and every active
track that had no feedback or an all-zero filter history has every buffer element
below `Length` exactly 0 afterwards. -/
theorem idle_flush_quiet_tracks (m : mi) (paux ps : Mem) (numsamples : ℤ) (mode : ℕ)
    (hI : m.IdleMode = false) (hm : mode = WM_NOIO ∨ mode = WM_WRITE) (hn : 0 ≤ numsamples)
    (hok : TracksOK m.numTracks m.Tracks)
    (hb : m.IdleCount + numsamples ≥ m.DelayTime + MAX_BUFFER_LENGTH) :
    ∃ r, Work m paux ps numsamples mode = some r ∧ r.1 = true ∧ r.2.1.IdleMode = true
      ∧ ∀ (i : ℕ) (t u : CTrack), i < m.numTracks → m.Tracks[i]? = some t →
          r.2.1.Tracks[i]? = some u → Quiet t →
          ∀ q : ℕ, (q : ℤ) < u.Length → u.Buffer q = 0 := by
  obtain ⟨k, rfl⟩ : ∃ k : ℕ, numsamples = (k : ℤ) := ⟨numsamples.toNat, by omega⟩
  have hread : mode &&& WM_READ = 0 := by rcases hm with rfl | rfl <;> decide
  have hw := Work_of_WorkIdle m _ paux ps k mode
    (WorkIdle_reached m (k : ℤ) mode hread hI hb) (clearBuffers_OK _ _ hok)
  refine ⟨_, hw, rfl, rfl, ?_⟩
  intro i t u hi ht hu hQ
  have hinv := TracksOK_get _ _ hok i t hi ht
  have hc := clearBuffers_get m.numTracks m.Tracks i t hi ht
  have hF : Flushed { t with Buffer := zeroFill t.Buffer t.Length.toNat } := by
    refine ⟨hinv.1, hinv.2, fun q hq => ?_, hQ⟩
    have hq2 : q < t.Length.toNat := by simp only [] at hq; omega
    simp [zeroFill, hq2]
  have hfin := WorkTracksSamples_get _ k mode Flushed Flushed
    (fun t pout hA => WorkSamples_Flushed _ mode hm k t 0 pout 0 hA)
    m.numTracks _ _ i _ u hi hc hu hF
  exact hfin.2.2.1

theorem idle_flush_quiet_tracks_witness :
    ∃ r, Work engine0 zeroMem ramp 1792 WM_WRITE = some r ∧ r.1 = true
      ∧ r.2.1.IdleMode = true
      ∧ ∀ (i : ℕ) (t u : CTrack), i < engine0.numTracks → engine0.Tracks[i]? = some t →
          r.2.1.Tracks[i]? = some u → Quiet t →
          ∀ q : ℕ, (q : ℤ) < u.Length → u.Buffer q = 0 :=
  idle_flush_quiet_tracks engine0 zeroMem ramp 1792 WM_WRITE rfl (Or.inr rfl) (by decide)
    track0_OK (by decide)

/-- C7, the failing run: `ringEngine` is active and one silent sample takes its
silent count to `288 = DelayTime + MAX_BUFFER_LENGTH`; `Work` returns with
`IdleMode` true, yet slot 0 of the active track (of `Length` 2) then holds
`1/2`: the `memset` that clears the buffers runs first and the block is processed
after it, so the filter, still ringing, puts `Feedback * o = 1/2 * 1` back at the
cursor. -/
theorem idle_flush_leaves_ringing :
    ringEngine.IdleMode = false
      ∧ ringEngine.IdleCount + 1 ≥ ringEngine.DelayTime + MAX_BUFFER_LENGTH
      ∧ ∃ r, Work ringEngine zeroMem zeroMem 1 WM_NOIO = some r ∧ r.2.1.IdleMode = true
        ∧ (r.2.1.Tracks.take r.2.1.numTracks).map (fun t => t.Length) = [2]
        ∧ (r.2.1.Tracks.take r.2.1.numTracks).map (fun t => t.Buffer 0) = [1 / 2] := by
  refine ⟨rfl, by decide, ?_⟩
  have hok : TracksOK 1 [ringTrack] := by
    intro t ht
    simp only [List.take_succ_cons, List.take_zero, List.mem_singleton] at ht
    subst ht
    exact ⟨by decide, by decide⟩
  have hw := Work_of_WorkIdle ringEngine _ zeroMem zeroMem 1 WM_NOIO
    (WorkIdle_reached ringEngine ((1 : ℕ) : ℤ) WM_NOIO (by decide) rfl (by decide))
    (clearBuffers_OK _ _ hok)
  refine ⟨_, hw, rfl, ?_, ?_⟩
  · simp [ringEngine, ringTrack, track0, clearBuffers, WorkTracksSamples, WorkSamples,
      WorkSample, dispatch, DoWorkNoInputNoOutput, wrapPos, WM_NOIO]
  · simp [ringEngine, ringTrack, track0, clearBuffers, WorkTracksSamples, WorkSamples,
      WorkSample, dispatch, DoWorkNoInputNoOutput, wrapPos, poke, zeroFill, bwOut, WM_NOIO]

/-! ## `Work`: the dry/wet mix -/

theorem specRun_congr (x y : Mem) (n : ℕ) : ∀ (t : CTrack) (i : ℕ),
    (∀ j, j < n → x (i + j) = y (i + j)) → specRun n t x i = specRun n t y i := by
  induction n with
  | zero => intro t i _; rfl
  | succ k ih =>
    intro t i h
    rw [specRun, specRun]
    have h0 : x i = y i := by simpa using h 0 (by omega)
    rw [h0]
    exact ih _ (i + 1) (fun j hj => by
      have := h (j + 1) (by omega)
      rwa [show i + 1 + j = i + (j + 1) by omega])

theorem specTap_congr (x y : Mem) (n : ℕ) (t : CTrack) (i : ℕ)
    (h : ∀ j, j ≤ n → x (i + j) = y (i + j)) : specTap n t x i = specTap n t y i := by
  rw [specTap, specTap, specRun_congr x y n t i (fun j hj => h j (by omega)), h n (le_refl n)]

theorem wetSum_congr (n : ℕ) (ts : List CTrack) (x y : Mem) (j : ℕ)
    (h : ∀ i, i ≤ j → x i = y i) : wetSum n ts x j = wetSum n ts y j := by
  unfold wetSum
  congr 1
  apply List.map_congr_left
  intro t _
  rw [specTap_congr x y j t 0 (fun i hi => by simpa using h i hi)]

theorem wetSum_zero (ts : List CTrack) (x : Mem) (j : ℕ) : wetSum 0 ts x j = 0 := by
  simp [wetSum]

theorem wetSum_nil (n : ℕ) (x : Mem) (j : ℕ) : wetSum n [] x j = 0 := by
  simp [wetSum]

theorem wetSum_cons (n : ℕ) (t : CTrack) (ts : List CTrack) (x : Mem) (j : ℕ) :
    wetSum (n + 1) (t :: ts) x j = specTap j t x 0 * t.WetOut + wetSum n ts x j := by
  simp [wetSum]

/-- With output wanted, the track loop adds to each output sample of the block the
wet sum of the active tracks, and leaves the samples past the block alone. -/
theorem WorkTracksSamples_out (pin x : Mem) (k mode : ℕ)
    (h : (mode = WM_READWRITE ∧ x = pin) ∨ (mode = WM_WRITE ∧ x = zeroMem)) (n : ℕ) :
    ∀ (ts : List CTrack) (pout : Mem) (j : ℕ),
    (WorkTracksSamples n ts pin pout k mode).2 j
      = if j < k then pout j + wetSum n ts x j else pout j := by
  induction n with
  | zero =>
    intro ts pout j
    simp [WorkTracksSamples, wetSum_zero]
  | succ m ih =>
    intro ts pout j
    cases ts with
    | nil => simp [WorkTracksSamples, wetSum_nil]
    | cons t ts =>
      rw [WorkTracksSamples, ih, (WorkSamples_spec pin x mode h k t 0 pout 0).2 j, wetSum_cons]
      by_cases hj : j < k
      · have hr : 0 ≤ j ∧ j < 0 + k := by omega
        simp only [if_pos hj, if_pos hr, Nat.sub_zero]
        ring
      · have hr : ¬ (0 ≤ j ∧ j < 0 + k) := by omega
        simp only [if_neg hj, if_neg hr]

/-- C10. Dry/wet mixing in `Work`, in exact arithmetic, for a block of `k` samples
on an engine whose active tracks satisfy the cursor invariant. In input+output
mode `Work` returns true and each output sample is the raw input sample if
`DryThru` (else 0) plus the sum over the active tracks of the track's filtered
delayed sample times its `WetOut`; in output-only mode, on an engine that is not
idle, each output sample is that sum alone (silent input, the tracks as the idle
bookkeeping of this call leaves them), whatever `DryThru`. In particular, with
`DryThru` on, real input present and every active track's `WetOut = 0`, the
output block is the input block. -/
theorem Work_dry_wet_mix (m : mi) (paux ps : Mem) (k : ℕ)
    (hok : TracksOK m.numTracks m.Tracks) :
    (∃ r, Work m paux ps (k : ℤ) WM_READWRITE = some r ∧ r.1 = true
        ∧ (∀ j, j < k → r.2.2.2 j
            = (if m.DryThru = true then ps j else 0) + wetSum m.numTracks m.Tracks ps j)
        ∧ (m.DryThru = true → (∀ t ∈ m.Tracks.take m.numTracks, t.WetOut = 0) →
            ∀ j, j < k → r.2.2.2 j = ps j))
      ∧ (m.IdleMode = false →
          ∃ r m1, WorkIdle m (k : ℤ) WM_WRITE = some m1
            ∧ Work m paux ps (k : ℤ) WM_WRITE = some r ∧ r.1 = true
            ∧ ∀ j, j < k → r.2.2.2 j = wetSum m1.numTracks m1.Tracks zeroMem j) := by
  constructor
  · have hw := Work_of_WorkIdle m _ paux ps k WM_READWRITE
      (WorkIdle_read m (k : ℤ) WM_READWRITE (by decide)) hok
    have hout : ∀ j, j < k →
        (WorkTracksSamples m.numTracks m.Tracks (WorkAux paux ps (k : ℤ) WM_READWRITE)
          (WorkDry m.DryThru ps (k : ℤ) WM_READWRITE) k WM_READWRITE).2 j
          = (if m.DryThru = true then ps j else 0) + wetSum m.numTracks m.Tracks ps j := by
      intro j hj
      rw [WorkTracksSamples_out _ (WorkAux paux ps (k : ℤ) WM_READWRITE) k WM_READWRITE
        (Or.inl ⟨rfl, rfl⟩), if_pos hj]
      have hx : wetSum m.numTracks m.Tracks (WorkAux paux ps (k : ℤ) WM_READWRITE) j
          = wetSum m.numTracks m.Tracks ps j := by
        apply wetSum_congr
        intro i hi
        have hik : i < k := by omega
        simp [WorkAux, WM_READWRITE, WM_READ, copyMem, hik]
      rw [hx]
      congr 1
      cases hd : m.DryThru <;> simp [WorkDry, WM_READWRITE, WM_READ, zeroFill, hj]
    refine ⟨_, hw, rfl, hout, ?_⟩
    intro hd hwet j hj
    rw [hout j hj, if_pos hd]
    have hz : wetSum m.numTracks m.Tracks ps j = 0 := by
      unfold wetSum
      apply List.sum_eq_zero
      intro q hq
      simp only [List.mem_map] at hq
      obtain ⟨t, ht, rfl⟩ := hq
      rw [hwet t ht, mul_zero]
    rw [hz, add_zero]
  · intro hI
    have hread : WM_WRITE &&& WM_READ = 0 := by decide
    by_cases hb : m.IdleCount + (k : ℤ) ≥ m.DelayTime + MAX_BUFFER_LENGTH
    · have hi := WorkIdle_reached m (k : ℤ) WM_WRITE hread hI hb
      have hw := Work_of_WorkIdle m _ paux ps k WM_WRITE hi (clearBuffers_OK _ _ hok)
      refine ⟨_, _, hi, hw, rfl, fun j hj => ?_⟩
      rw [WorkTracksSamples_out _ zeroMem k WM_WRITE (Or.inr ⟨rfl, rfl⟩), if_pos hj]
      simp [WorkDry, WM_WRITE, WM_READ, zeroFill, hj]
    · have hi := WorkIdle_below m (k : ℤ) WM_WRITE hread hI (by omega)
      have hw := Work_of_WorkIdle m _ paux ps k WM_WRITE hi hok
      refine ⟨_, _, hi, hw, rfl, fun j hj => ?_⟩
      rw [WorkTracksSamples_out _ zeroMem k WM_WRITE (Or.inr ⟨rfl, rfl⟩), if_pos hj]
      simp [WorkDry, WM_WRITE, WM_READ, zeroFill, hj]

theorem Work_dry_wet_mix_witness :
    ∃ r, Work engine0 zeroMem ramp ((256 : ℕ) : ℤ) WM_READWRITE = some r ∧ r.1 = true
      ∧ (∀ j, j < 256 → r.2.2.2 j
          = (if engine0.DryThru = true then ramp j else 0)
            + wetSum engine0.numTracks engine0.Tracks ramp j)
      ∧ (engine0.DryThru = true → (∀ t ∈ engine0.Tracks.take engine0.numTracks, t.WetOut = 0) →
          ∀ j, j < 256 → r.2.2.2 j = ramp j) :=
  (Work_dry_wet_mix engine0 zeroMem ramp 256 track0_OK).1

/-! ## The cursor after a block -/

/-- The cursor after `n` samples is `(Pos + n) mod Length`. -/
theorem WorkSamples_Pos_mod (pin : Mem) (mode : ℕ) (n : ℕ) : ∀ (pt : CTrack) (ip : ℕ)
    (pout : Mem) (io : ℕ), 0 ≤ pt.Pos → pt.Pos < pt.Length →
    (WorkSamples n pt pin ip pout io mode).1.Pos = (pt.Pos + (n : ℤ)) % pt.Length := by
  induction n with
  | zero =>
    intro pt ip pout io h0 h1
    simp only [WorkSamples, Nat.cast_zero, add_zero]
    exact (Int.emod_eq_of_lt h0 h1).symm
  | succ k ih =>
    intro pt ip pout io h0 h1
    rw [WorkSamples]
    have hL := WorkSample_Length pt pin ip pout io mode
    have hP := WorkSample_Pos pt pin ip pout io mode
    rw [ih _ _ _ _ (by rw [hP]; split_ifs <;> omega) (by rw [hP, hL]; split_ifs <;> omega),
      hP, hL]
    split_ifs with hw
    · have e : pt.Pos + ((k + 1 : ℕ) : ℤ) = (k : ℤ) + pt.Length := by push_cast; omega
      rw [e, Int.add_emod_self, zero_add]
    · congr 1; push_cast; ring

/-! ## The modes without output -/

/-- One sample in input-only mode with no feedback: the input sample stored at the
cursor, the filter and the output left alone. -/
theorem WorkSample_bypass (pt : CTrack) (pin : Mem) (ip : ℕ) (pout : Mem) (io : ℕ)
    (hF : pt.Feedback = 0) :
    WorkSample pt pin ip pout io WM_READ
      = (wrapPos { pt with Buffer := poke pt.Buffer pt.Pos.toNat (pin ip), Pos := pt.Pos + 1 },
          pout) := by
  have hb : DoWorkNoOutputNoFB pin ip pt.Buffer pt.Pos.toNat 1
      = poke pt.Buffer pt.Pos.toNat (pin ip) := by
    funext j
    simp only [DoWorkNoOutputNoFB, poke]
    by_cases hj : j = pt.Pos.toNat
    · subst hj; simp
    · have hn : ¬ (pt.Pos.toNat ≤ j ∧ j < pt.Pos.toNat + 1) := by omega
      rw [if_neg hn, if_neg hj]
  simp [WorkSample, dispatch, WM_READ, WM_NOIO, WM_WRITE, hF, hb]

/-- One sample in the no-input/no-output mode with no feedback: only the cursor
moves. -/
theorem WorkSample_idle (pt : CTrack) (pin : Mem) (ip : ℕ) (pout : Mem) (io : ℕ)
    (hF : pt.Feedback = 0) :
    WorkSample pt pin ip pout io WM_NOIO = (wrapPos { pt with Pos := pt.Pos + 1 }, pout) := by
  simp [WorkSample, dispatch, hF]

theorem wrapPos_frame (t : CTrack) :
    (wrapPos t).Filter = t.Filter ∧ (wrapPos t).Buffer = t.Buffer
      ∧ (wrapPos t).Feedback = t.Feedback ∧ (wrapPos t).Length = t.Length := by
  simp only [wrapPos]; split_ifs <;> exact ⟨rfl, rfl, rfl, rfl⟩

/-- A block in the no-input/no-output mode with no feedback leaves the buffer, the
filter and the output as they were. -/
theorem WorkSamples_idle (pin : Mem) (n : ℕ) : ∀ (pt : CTrack) (ip : ℕ) (pout : Mem) (io : ℕ),
    pt.Feedback = 0 →
    (WorkSamples n pt pin ip pout io WM_NOIO).1.Filter = pt.Filter
      ∧ (WorkSamples n pt pin ip pout io WM_NOIO).1.Buffer = pt.Buffer
      ∧ (WorkSamples n pt pin ip pout io WM_NOIO).2 = pout := by
  induction n with
  | zero => intro pt ip pout io _; exact ⟨rfl, rfl, rfl⟩
  | succ k ih =>
    intro pt ip pout io hF
    rw [WorkSamples, WorkSample_idle pt pin ip pout io hF]
    have hw := wrapPos_frame { pt with Pos := pt.Pos + 1 }
    obtain ⟨a, b, c⟩ := ih (wrapPos { pt with Pos := pt.Pos + 1 }) (ip + 1) pout (io + 1)
      (by rw [hw.2.2.1]; exact hF)
    exact ⟨by rw [a, hw.1], by rw [b, hw.2.1], c⟩

theorem WorkSamples_one (pt : CTrack) (pin : Mem) (ip : ℕ) (pout : Mem) (io mode : ℕ) :
    WorkSamples 1 pt pin ip pout io mode = WorkSample pt pin ip pout io mode := rfl

/-- A block in input-only mode with no feedback: the filter and the output are left
alone; a slot holds the input sample of the last time the cursor was on it, or
what it held before when the cursor never was. -/
theorem WorkSamples_bypass (pin : Mem) (n : ℕ) (pt : CTrack) (ip : ℕ) (pout : Mem) (io : ℕ)
    (hF : pt.Feedback = 0) (h0 : 0 ≤ pt.Pos) (h1 : pt.Pos < pt.Length) :
    (WorkSamples n pt pin ip pout io WM_READ).1.Filter = pt.Filter
      ∧ (WorkSamples n pt pin ip pout io WM_READ).1.Feedback = 0
      ∧ (WorkSamples n pt pin ip pout io WM_READ).2 = pout
      ∧ ∀ q : ℕ,
          (∀ m : ℕ, m < n → (pt.Pos + (m : ℤ)) % pt.Length = (q : ℤ) →
              (∀ k : ℕ, m < k → k < n → (pt.Pos + (k : ℤ)) % pt.Length ≠ (q : ℤ)) →
              (WorkSamples n pt pin ip pout io WM_READ).1.Buffer q = pin (ip + m))
            ∧ ((∀ m : ℕ, m < n → (pt.Pos + (m : ℤ)) % pt.Length ≠ (q : ℤ)) →
              (WorkSamples n pt pin ip pout io WM_READ).1.Buffer q = pt.Buffer q) := by
  induction n with
  | zero =>
    refine ⟨rfl, hF, rfl, fun q => ⟨fun m hm => by omega, fun _ => rfl⟩⟩
  | succ n ih =>
    obtain ⟨iF, iFb, iO, iB⟩ := ih
    have hP := WorkSamples_Pos_mod pin WM_READ n pt ip pout io h0 h1
    have hL : 0 < pt.Length := by omega
    have he0 : 0 ≤ (pt.Pos + (n : ℤ)) % pt.Length := Int.emod_nonneg _ (by omega)
    rw [WorkSamples_add pin WM_READ n 1 pt ip pout io, WorkSamples_one,
      WorkSample_bypass _ pin (ip + n) _ (io + n) iFb]
    have hw := wrapPos_frame
      { (WorkSamples n pt pin ip pout io WM_READ).1 with
        Buffer := poke (WorkSamples n pt pin ip pout io WM_READ).1.Buffer
          (WorkSamples n pt pin ip pout io WM_READ).1.Pos.toNat (pin (ip + n)),
        Pos := (WorkSamples n pt pin ip pout io WM_READ).1.Pos + 1 }
    refine ⟨by rw [hw.1]; exact iF, by rw [hw.2.2.1]; exact iFb, iO, fun q => ?_⟩
    rw [hw.2.1]
    simp only [poke, hP]
    have hq : q = ((pt.Pos + (n : ℤ)) % pt.Length).toNat
        ↔ (pt.Pos + (n : ℤ)) % pt.Length = (q : ℤ) := by omega
    constructor
    · intro m hm hit later
      by_cases hmn : m = n
      · subst hmn
        rw [if_pos (hq.2 hit)]
      · have hne : (pt.Pos + (n : ℤ)) % pt.Length ≠ (q : ℤ) := later n (by omega) (by omega)
        rw [if_neg (fun h => hne (hq.1 h))]
        exact (iB q).1 m (by omega) hit (fun k hk hkn => later k hk (by omega))
    · intro none
      have hne : (pt.Pos + (n : ℤ)) % pt.Length ≠ (q : ℤ) := none n (by omega)
      rw [if_neg (fun h => hne (hq.1 h))]
      exact (iB q).2 (fun m hm => none m (by omega))

/-- C18. Bypass write with wraparound at `Length`: on a track with `Feedback = 0`
and `0 ≤ Pos = p0 < Length`, `WorkTrack` in input-only mode on `n` samples returns
with the filter coefficients and history unchanged and `Pos = (p0 + n) mod Length`;
each slot `q < Length` holds `in[m]` for the largest `m < n` with
`(p0 + m) mod Length = q`, or its previous content when there is no such `m`; the
slots at index `≥ Length` are as they were; the output is not touched. -/
theorem bypass_write_wraps_at_Length (pt : CTrack) (pin pout : Mem) (n : ℕ)
    (hF : pt.Feedback = 0) (h0 : 0 ≤ pt.Pos) (h1 : pt.Pos < pt.Length) :
    ∃ r, WorkTrack pt pin pout (n : ℤ) WM_READ = some r
      ∧ r.1.Filter = pt.Filter
      ∧ r.1.Pos = (pt.Pos + (n : ℤ)) % pt.Length
      ∧ (∀ q : ℕ, (q : ℤ) < pt.Length →
          (∀ m : ℕ, m < n → (pt.Pos + (m : ℤ)) % pt.Length = (q : ℤ) →
              (∀ k : ℕ, m < k → k < n → (pt.Pos + (k : ℤ)) % pt.Length ≠ (q : ℤ)) →
              r.1.Buffer q = pin m)
            ∧ ((∀ m : ℕ, m < n → (pt.Pos + (m : ℤ)) % pt.Length ≠ (q : ℤ)) →
              r.1.Buffer q = pt.Buffer q))
      ∧ (∀ q : ℕ, pt.Length ≤ (q : ℤ) → r.1.Buffer q = pt.Buffer q)
      ∧ r.2 = pout := by
  obtain ⟨hFi, _, hO, hB⟩ := WorkSamples_bypass pin n pt 0 pout 0 hF h0 h1
  refine ⟨_, WorkTrack_eq pt pin pout n WM_READ h0 h1, hFi,
    WorkSamples_Pos_mod pin WM_READ n pt 0 pout 0 h0 h1, ?_, ?_, hO⟩
  · intro q _
    refine ⟨fun m hm hit later => ?_, (hB q).2⟩
    have := (hB q).1 m hm hit later
    rwa [Nat.zero_add] at this
  · intro q hq
    apply (hB q).2
    intro m _ hit
    have : (pt.Pos + (m : ℤ)) % pt.Length < pt.Length := Int.emod_lt_of_pos _ (by omega)
    omega

theorem bypass_write_wraps_at_Length_witness :
    ∃ r, WorkTrack delay3 ramp zeroMem ((7 : ℕ) : ℤ) WM_READ = some r
      ∧ r.1.Filter = delay3.Filter
      ∧ r.1.Pos = (delay3.Pos + ((7 : ℕ) : ℤ)) % delay3.Length
      ∧ (∀ q : ℕ, (q : ℤ) < delay3.Length →
          (∀ m : ℕ, m < 7 → (delay3.Pos + (m : ℤ)) % delay3.Length = (q : ℤ) →
              (∀ k : ℕ, m < k → k < 7 → (delay3.Pos + (k : ℤ)) % delay3.Length ≠ (q : ℤ)) →
              r.1.Buffer q = ramp m)
            ∧ ((∀ m : ℕ, m < 7 → (delay3.Pos + (m : ℤ)) % delay3.Length ≠ (q : ℤ)) →
              r.1.Buffer q = delay3.Buffer q))
      ∧ (∀ q : ℕ, delay3.Length ≤ (q : ℤ) → r.1.Buffer q = delay3.Buffer q)
      ∧ r.2 = zeroMem :=
  bypass_write_wraps_at_Length delay3 ramp zeroMem 7 rfl (by decide) (by decide)

/-- C11, amended. On a track with `Feedback = 0` within the cursor invariant,
`WorkTrack` in input-only mode returns with the filter coefficients and history
equal to their values before the call, and so is every element of the buffer
except the slots the cursor passes (which receive the input). -/
theorem bypass_leaves_filter (pt : CTrack) (pin pout : Mem) (n : ℕ)
    (hF : pt.Feedback = 0) (h0 : 0 ≤ pt.Pos) (h1 : pt.Pos < pt.Length) :
    ∃ r, WorkTrack pt pin pout (n : ℤ) WM_READ = some r
      ∧ r.1.Filter = pt.Filter
      ∧ ∀ q : ℕ, (∀ m : ℕ, m < n → (pt.Pos + (m : ℤ)) % pt.Length ≠ (q : ℤ)) →
          r.1.Buffer q = pt.Buffer q := by
  obtain ⟨hFi, _, _, hB⟩ := WorkSamples_bypass pin n pt 0 pout 0 hF h0 h1
  exact ⟨_, WorkTrack_eq pt pin pout n WM_READ h0 h1, hFi, fun q => (hB q).2⟩

theorem bypass_leaves_filter_witness :
    ∃ r, WorkTrack delay3 ramp zeroMem ((2 : ℕ) : ℤ) WM_READ = some r
      ∧ r.1.Filter = delay3.Filter
      ∧ ∀ q : ℕ, (∀ m : ℕ, m < 2 → (delay3.Pos + (m : ℤ)) % delay3.Length ≠ (q : ℤ)) →
          r.1.Buffer q = delay3.Buffer q :=
  bypass_leaves_filter delay3 ramp zeroMem 2 rfl (by decide) (by decide)

/-- C11, as stated, fails: on `delay3` (`Feedback = 0`, an all-zero buffer) one
sample of the ramp in input-only mode leaves `Buffer[0] = 1`: the bypass variant is
`memcpy(pbuf, psamples, c*4)`, which stores the input in the delay buffer. -/
theorem bypass_overwrites_buffer :
    delay3.Feedback = 0 ∧ delay3.Buffer 0 = 0
      ∧ ∃ r, WorkTrack delay3 ramp zeroMem ((1 : ℕ) : ℤ) WM_READ = some r
        ∧ r.1.Buffer 0 = 1 := by
  refine ⟨rfl, rfl, _, WorkTrack_eq delay3 ramp zeroMem 1 WM_READ (by decide) (by decide), ?_⟩
  rw [WorkSamples_one, WorkSample_bypass delay3 ramp 0 zeroMem 0 rfl]
  simp [wrapPos_frame, poke, delay3, track0, ramp]

/-- C19, amended. On a track with `Feedback = 0` within the cursor invariant,
`WorkTrack` in the no-input/no-output mode returns with the buffer, the filter
coefficients and history and the output as they were; only the cursor moves, to
`(Pos + numsamples) mod Length`. -/
theorem idle_mode_without_feedback_only_moves_cursor (pt : CTrack) (pin pout : Mem) (n : ℕ)
    (hF : pt.Feedback = 0) (h0 : 0 ≤ pt.Pos) (h1 : pt.Pos < pt.Length) :
    ∃ r, WorkTrack pt pin pout (n : ℤ) WM_NOIO = some r
      ∧ r.1.Buffer = pt.Buffer ∧ r.1.Filter = pt.Filter ∧ r.2 = pout
      ∧ r.1.Pos = (pt.Pos + (n : ℤ)) % pt.Length := by
  obtain ⟨a, b, c⟩ := WorkSamples_idle pin n pt 0 pout 0 hF
  exact ⟨_, WorkTrack_eq pt pin pout n WM_NOIO h0 h1, b, a, c,
    WorkSamples_Pos_mod pin WM_NOIO n pt 0 pout 0 h0 h1⟩

theorem idle_mode_without_feedback_only_moves_cursor_witness :
    ∃ r, WorkTrack rampTrack zeroMem zeroMem ((5 : ℕ) : ℤ) WM_NOIO = some r
      ∧ r.1.Buffer = rampTrack.Buffer ∧ r.1.Filter = rampTrack.Filter ∧ r.2 = zeroMem
      ∧ r.1.Pos = (rampTrack.Pos + ((5 : ℕ) : ℤ)) % rampTrack.Length :=
  idle_mode_without_feedback_only_moves_cursor rampTrack zeroMem zeroMem 5 rfl (by decide)
    (by decide)

/-- C19, as stated, fails: on `rampTrack` (`Feedback = 0`, `Buffer[0] = 1`,
pass-through filter with zero history) one sample in the no-input/no-output mode
leaves `Buffer[0] = 1`, not 0, and the filter history as it was, whereas `DoWork`
on an all-zero input with feedback 0 puts 0 in the slot and moves the history on
(`i[0] = o[0] = 1`): with `Feedback = 0` the mode invokes no inner loop. -/
theorem idle_mode_without_feedback_skips_the_loop :
    rampTrack.Feedback = 0
      ∧ (DoWork zeroMem 0 zeroMem 0 rampTrack.Buffer 0 1 rampTrack.WetOut 0
          rampTrack.Filter).2.1 0 = 0
      ∧ (DoWork zeroMem 0 zeroMem 0 rampTrack.Buffer 0 1 rampTrack.WetOut 0
          rampTrack.Filter).2.2.i0 = 1
      ∧ ∃ r, WorkTrack rampTrack zeroMem zeroMem ((1 : ℕ) : ℤ) WM_NOIO = some r
        ∧ r.1.Buffer 0 = 1 ∧ r.1.Filter.i0 = 0 := by
  refine ⟨rfl, ?_, ?_, _,
    WorkTrack_eq rampTrack zeroMem zeroMem 1 WM_NOIO (by decide) (by decide), ?_, ?_⟩
  · simp [DoWork, poke, zeroMem]
  · simp [DoWork, bwShift, rampTrack, track0, ramp]
  · rw [(WorkSamples_idle zeroMem 1 rampTrack 0 zeroMem 0 rfl).2.1]
    simp [rampTrack, ramp]
  · rw [(WorkSamples_idle zeroMem 1 rampTrack 0 zeroMem 0 rfl).1]
    rfl

/-! ## Splitting a block -/

theorem WorkTrackAt_eq (pt : CTrack) (pin : Mem) (ip : ℕ) (pout : Mem) (io : ℕ) (n : ℕ)
    (mode : ℕ) (h0 : 0 ≤ pt.Pos) (h1 : pt.Pos < pt.Length) :
    WorkTrackAt pt pin ip pout io (n : ℤ) mode
      = some (WorkSamples n pt pin ip pout io mode) := by
  unfold WorkTrackAt
  exact WorkTrackLoop_eq pin mode _ n pt ip pout io h0 h1 (by omega)

/-- C20. Block-splitting independence of `WorkTrack`: on a track with
`0 ≤ Pos < Length`, for every mode and every `n1`, `n2`, `WorkTrack` on all
`n1 + n2` samples returns the same track (buffer, `Pos`, filter state) and the
same output samples as `WorkTrack` on the first `n1` samples followed by
`WorkTrack` on the remaining `n2` (the pointers advanced by `n1`), and the final
`Pos` is `(Pos + n1 + n2) mod Length`. -/
theorem WorkTrack_block_splitting (pt : CTrack) (pin pout : Mem) (n1 n2 : ℕ) (mode : ℕ)
    (h0 : 0 ≤ pt.Pos) (h1 : pt.Pos < pt.Length) :
    ∃ r r1 r2, WorkTrack pt pin pout ((n1 + n2 : ℕ) : ℤ) mode = some r
      ∧ WorkTrack pt pin pout (n1 : ℤ) mode = some r1
      ∧ WorkTrackAt r1.1 pin n1 r1.2 n1 (n2 : ℤ) mode = some r2
      ∧ r = r2
      ∧ r.1.Pos = (pt.Pos + (n1 : ℤ) + (n2 : ℤ)) % pt.Length := by
  have hB := WorkSamples_Pos_bounds pin mode n1 pt 0 pout 0 h0 h1
  have hL := WorkSamples_Length pin mode n1 pt 0 pout 0
  refine ⟨_, _, _, WorkTrack_eq pt pin pout (n1 + n2) mode h0 h1,
    WorkTrack_eq pt pin pout n1 mode h0 h1,
    WorkTrackAt_eq _ pin n1 _ n1 n2 mode hB.1 (by rw [hL]; exact hB.2), ?_, ?_⟩
  · rw [WorkSamples_add pin mode n1 n2 pt 0 pout 0, Nat.zero_add]
  · rw [WorkSamples_Pos_mod pin mode (n1 + n2) pt 0 pout 0 h0 h1]
    congr 1; push_cast; ring

theorem WorkTrack_block_splitting_witness :
    ∃ r r1 r2, WorkTrack delay3 ramp zeroMem ((2 + 5 : ℕ) : ℤ) WM_READWRITE = some r
      ∧ WorkTrack delay3 ramp zeroMem ((2 : ℕ) : ℤ) WM_READWRITE = some r1
      ∧ WorkTrackAt r1.1 ramp 2 r1.2 2 ((5 : ℕ) : ℤ) WM_READWRITE = some r2
      ∧ r = r2
      ∧ r.1.Pos = (delay3.Pos + ((2 : ℕ) : ℤ) + ((5 : ℕ) : ℤ)) % delay3.Length :=
  WorkTrack_block_splitting delay3 ramp zeroMem 2 5 WM_READWRITE (by decide) (by decide)

/-! ## The passes of `WorkTrack` -/

theorem dispatch_one_Buffer_frame (pin : Mem) (mode : ℕ) (pt : CTrack) (ip : ℕ)
    (pout : Mem) (io : ℕ) (q : ℕ) (hne : q ≠ pt.Pos.toNat) :
    (dispatch pt pin ip pout io 1 mode).1.Buffer q = pt.Buffer q := by
  have hr : ¬ (pt.Pos.toNat ≤ q ∧ q < pt.Pos.toNat + 1) := by omega
  simp only [dispatch]
  split_ifs
  · simp [DoWorkNoInputNoOutput, poke, hne]
  · rfl
  · simp [DoWorkNoInput, poke, hne]
  · simp [DoWorkNoInputNoFB, poke, hne]
  · simp [DoWorkNoOutput, poke, hne]
  · simp only [DoWorkNoOutputNoFB]
    rw [if_neg hr]
  · simp [DoWork, poke, hne]
  · simp [DoWorkNoFB, poke, hne]

/-- An inner loop invoked on `c ≥ 1` samples at the cursor writes the buffer only
at the indices `Pos ≤ q < Pos + c`. -/
theorem dispatch_Buffer_frame (pin : Mem) (mode : ℕ) (c : ℕ) : ∀ (pt : CTrack) (ip : ℕ)
    (pout : Mem) (io : ℕ) (q : ℕ), 0 ≤ pt.Pos →
    ((q : ℤ) < pt.Pos ∨ pt.Pos + ((c : ℤ) + 1) ≤ (q : ℤ)) →
    (dispatch pt pin ip pout io (c + 1) mode).1.Buffer q = pt.Buffer q := by
  induction c with
  | zero =>
    intro pt ip pout io q h0 hq
    exact dispatch_one_Buffer_frame pin mode pt ip pout io q (by omega)
  | succ k ih =>
    intro pt ip pout io q h0 hq
    rw [dispatch_succ pt pin ip pout io k mode h0]
    simp only []
    rw [ih _ _ _ _ q (by simp only []; omega) (by simp only []; push_cast at hq; omega)]
    exact dispatch_one_Buffer_frame pin mode pt ip pout io q (by push_cast at hq; omega)

/-- A block leaves the buffer as it was at every index from `Length` on. -/
theorem WorkSamples_Buffer_above (pin : Mem) (mode : ℕ) (n : ℕ) : ∀ (pt : CTrack) (ip : ℕ)
    (pout : Mem) (io : ℕ) (q : ℕ), 0 ≤ pt.Pos → pt.Pos < pt.Length → pt.Length ≤ (q : ℤ) →
    (WorkSamples n pt pin ip pout io mode).1.Buffer q = pt.Buffer q := by
  induction n with
  | zero => intro pt ip pout io q _ _ _; rfl
  | succ k ih =>
    intro pt ip pout io q h0 h1 hq
    rw [WorkSamples]
    have hL := WorkSample_Length pt pin ip pout io mode
    have hP := WorkSample_Pos pt pin ip pout io mode
    rw [ih _ _ _ _ q (by rw [hP]; split_ifs <;> omega) (by rw [hP, hL]; split_ifs <;> omega)
      (by rw [hL]; exact hq)]
    simp only [WorkSample]
    rw [(wrapPos_frame _).2.1]
    exact dispatch_one_Buffer_frame pin mode pt ip pout io q (by omega)

/-- With room for `f + 1` passes, the first reaching the wrap point and each later
one a whole lap, the loop of `WorkTrack` exits: every pass that invokes an inner
loop has `count ≥ 1` inside `[Pos, Length)`, the counts add up to `numsamples`, and
the result is the block processed sample by sample. -/
theorem WorkTrackPasses_bound (pin : Mem) (mode : ℕ) (f : ℕ) : ∀ (n : ℕ) (pt : CTrack)
    (ip : ℕ) (pout : Mem) (io : ℕ), 0 ≤ pt.Pos → pt.Pos < pt.Length →
    (n : ℤ) ≤ (pt.Length - pt.Pos) + (f : ℤ) * pt.Length →
    ∃ tr, WorkTrackPasses (f + 1) pt pin ip pout io (n : ℤ) mode = some tr
      ∧ tr.length ≤ f + 1
      ∧ (∀ e ∈ tr, e.2 > 0 → 1 ≤ e.2 ∧ 0 ≤ e.1 ∧ e.1 + e.2 ≤ pt.Length)
      ∧ (tr.map Prod.snd).sum = (n : ℤ)
      ∧ WorkTrackLoop (f + 1) pt pin ip pout io (n : ℤ) mode
          = some (WorkSamples n pt pin ip pout io mode) := by
  induction f with
  | zero =>
    intro n pt ip pout io h0 h1 hn
    simp only [Nat.cast_zero, zero_mul, add_zero] at hn
    rw [WorkTrackPasses, WorkTrackLoop]
    by_cases hz : n = 0
    · subst hz
      rw [Nat.cast_zero, WorkTrackPass_zero pt pin ip pout io mode h1]
      have hm : min (0 : ℤ) (pt.Length - pt.Pos) = 0 := by omega
      refine ⟨[(pt.Pos, 0)], by simp [hm], by simp, ?_, by simp, by simp [WorkSamples]⟩
      intro e he hpos
      simp only [List.mem_singleton] at he
      subst he
      simp at hpos
    · obtain ⟨c, hc⟩ : ∃ c : ℕ, min (n : ℤ) (pt.Length - pt.Pos) = (c : ℤ) + 1 :=
        ⟨(min (n : ℤ) (pt.Length - pt.Pos) - 1).toNat, by omega⟩
      have hcn : n = c + 1 := by omega
      rw [WorkTrackPass_pos pt pin ip pout io mode n c h0 hc, hc]
      have hrem : ¬ ((n : ℤ) - ((c : ℤ) + 1) > 0) := by omega
      simp only [if_neg hrem]
      refine ⟨_, rfl, by simp, ?_, by simp; omega, by rw [hcn]⟩
      intro e he _
      simp only [List.mem_singleton] at he
      subst he
      simp only []
      omega
  | succ g ih =>
    intro n pt ip pout io h0 h1 hn
    rw [WorkTrackPasses, WorkTrackLoop]
    by_cases hz : n = 0
    · subst hz
      rw [Nat.cast_zero, WorkTrackPass_zero pt pin ip pout io mode h1]
      have hm : min (0 : ℤ) (pt.Length - pt.Pos) = 0 := by omega
      refine ⟨[(pt.Pos, 0)], by simp [hm], by simp, ?_, by simp, by simp [WorkSamples]⟩
      intro e he hpos
      simp only [List.mem_singleton] at he
      subst he
      simp at hpos
    · obtain ⟨c, hc⟩ : ∃ c : ℕ, min (n : ℤ) (pt.Length - pt.Pos) = (c : ℤ) + 1 :=
        ⟨(min (n : ℤ) (pt.Length - pt.Pos) - 1).toNat, by omega⟩
      have hcn : c + 1 ≤ n := by omega
      rw [WorkTrackPass_pos pt pin ip pout io mode n c h0 hc, hc]
      obtain ⟨m, hm⟩ : ∃ m : ℕ, n = (c + 1) + m := ⟨n - (c + 1), by omega⟩
      have hsub : (n : ℤ) - ((c : ℤ) + 1) = (m : ℤ) := by omega
      simp only [hsub]
      have hL := WorkSamples_Length pin mode (c + 1) pt ip pout io
      have hB := WorkSamples_Pos_bounds pin mode (c + 1) pt ip pout io h0 h1
      by_cases hm0 : m = 0
      · subst hm0
        have hrem : ¬ (((0 : ℕ) : ℤ) > 0) := by simp
        simp only [if_neg hrem]
        refine ⟨_, rfl, by simp, ?_, by simp; omega, by rw [hm]⟩
        intro e he _
        simp only [List.mem_singleton] at he
        subst he
        simp only []
        omega
      · have hmp : (m : ℤ) > 0 := by omega
        simp only [if_pos hmp]
        have hfull : (c : ℤ) + 1 = pt.Length - pt.Pos := by omega
        have hP := WorkSamples_Pos_mod pin mode (c + 1) pt ip pout io h0 h1
        have hP0 : (WorkSamples (c + 1) pt pin ip pout io mode).1.Pos = 0 := by
          rw [hP]
          have e : pt.Pos + ((c + 1 : ℕ) : ℤ) = pt.Length := by push_cast; omega
          rw [e, Int.emod_self]
        have hroom : (m : ℤ)
            ≤ ((WorkSamples (c + 1) pt pin ip pout io mode).1.Length
                - (WorkSamples (c + 1) pt pin ip pout io mode).1.Pos)
              + (g : ℤ) * (WorkSamples (c + 1) pt pin ip pout io mode).1.Length := by
          rw [hL, hP0]
          have e2 : ((g + 1 : ℕ) : ℤ) * pt.Length = (g : ℤ) * pt.Length + pt.Length := by
            push_cast; ring
          rw [e2] at hn
          omega
        obtain ⟨tr, htr, hlen, hall, hsum, hloop⟩ :=
          ih m _ (ip + (c + 1)) _ (io + (c + 1)) hB.1 (by rw [hL]; exact hB.2) hroom
        rw [htr, hloop]
        refine ⟨_, rfl, by simp; omega, ?_, ?_, ?_⟩
        · intro e he hpos
          simp only [List.mem_cons] at he
          rcases he with rfl | he
          · simp only []
            omega
          · have := hall e he hpos
            rw [hL] at this
            exact this
        · simp only [List.map_cons, List.sum_cons, hsum]
          omega
        · rw [hm, WorkSamples_add pin mode (c + 1) m pt ip pout io]

theorem ceil_mul_ge (n L : ℕ) (hL : 0 < L) : n ≤ (n + L - 1) / L * L := by
  have h1 := Nat.div_add_mod (n + L - 1) L
  have h2 := Nat.mod_lt (n + L - 1) hL
  rw [Nat.mul_comm] at h1
  omega

/-- C17. `WorkTrack` is bounded: on a track with `0 ≤ Pos < Length`, for every mode
and every `numsamples = n ≥ 0`, the sub-range loop exits within
`ceil(n / Length) + 1` passes with the result of `WorkTrack`; every pass that
invokes an inner loop has `count ≥ 1` with `Pos + count ≤ Length`; an inner loop
invoked on `count` samples writes the buffer only at indices in
`[Pos, Pos + count)`; the counts add up to exactly `n`; and the buffer from index
`Length` on is as it was. -/
theorem WorkTrack_bounded (pt : CTrack) (pin pout : Mem) (n : ℕ) (mode : ℕ)
    (h0 : 0 ≤ pt.Pos) (h1 : pt.Pos < pt.Length) :
    (∃ tr r,
        WorkTrackPasses ((n + pt.Length.toNat - 1) / pt.Length.toNat + 1) pt pin 0 pout 0
            (n : ℤ) mode = some tr
        ∧ WorkTrackLoop ((n + pt.Length.toNat - 1) / pt.Length.toNat + 1) pt pin 0 pout 0
            (n : ℤ) mode = some r
        ∧ WorkTrack pt pin pout (n : ℤ) mode = some r
        ∧ tr.length ≤ (n + pt.Length.toNat - 1) / pt.Length.toNat + 1
        ∧ (∀ e ∈ tr, e.2 > 0 → 1 ≤ e.2 ∧ 0 ≤ e.1 ∧ e.1 + e.2 ≤ pt.Length)
        ∧ (tr.map Prod.snd).sum = (n : ℤ)
        ∧ ∀ q : ℕ, pt.Length ≤ (q : ℤ) → r.1.Buffer q = pt.Buffer q)
      ∧ ∀ (t : CTrack) (ip : ℕ) (po : Mem) (io c q : ℕ), 0 ≤ t.Pos → 1 ≤ c →
          ((q : ℤ) < t.Pos ∨ t.Pos + (c : ℤ) ≤ (q : ℤ)) →
          (dispatch t pin ip po io c mode).1.Buffer q = t.Buffer q := by
  constructor
  · have hLpos : 0 < pt.Length.toNat := by omega
    have hceil := ceil_mul_ge n pt.Length.toNat hLpos
    have hroom : (n : ℤ) ≤ (pt.Length - pt.Pos)
        + (((n + pt.Length.toNat - 1) / pt.Length.toNat : ℕ) : ℤ) * pt.Length := by
      have e : (pt.Length.toNat : ℤ) = pt.Length := Int.toNat_of_nonneg (by omega)
      have hc : ((n : ℕ) : ℤ)
          ≤ (((n + pt.Length.toNat - 1) / pt.Length.toNat * pt.Length.toNat : ℕ) : ℤ) := by
        exact_mod_cast hceil
      rw [Nat.cast_mul, e] at hc
      omega
    obtain ⟨tr, htr, hlen, hall, hsum, hloop⟩ :=
      WorkTrackPasses_bound pin mode _ n pt 0 pout 0 h0 h1 hroom
    exact ⟨tr, _, htr, hloop, WorkTrack_eq pt pin pout n mode h0 h1, hlen, hall, hsum,
      fun q hq => WorkSamples_Buffer_above pin mode n pt 0 pout 0 q h0 h1 hq⟩
  · intro t ip po io c q ht hc hq
    obtain ⟨k, rfl⟩ : ∃ k, c = k + 1 := ⟨c - 1, by omega⟩
    exact dispatch_Buffer_frame pin mode k t ip po io q ht (by push_cast at hq; exact hq)

theorem WorkTrack_bounded_witness :
    ∃ tr r,
      WorkTrackPasses ((7 + delay3.Length.toNat - 1) / delay3.Length.toNat + 1) delay3 ramp 0
          zeroMem 0 ((7 : ℕ) : ℤ) WM_READWRITE = some tr
      ∧ WorkTrackLoop ((7 + delay3.Length.toNat - 1) / delay3.Length.toNat + 1) delay3 ramp 0
          zeroMem 0 ((7 : ℕ) : ℤ) WM_READWRITE = some r
      ∧ WorkTrack delay3 ramp zeroMem ((7 : ℕ) : ℤ) WM_READWRITE = some r
      ∧ tr.length ≤ (7 + delay3.Length.toNat - 1) / delay3.Length.toNat + 1
      ∧ (∀ e ∈ tr, e.2 > 0 → 1 ≤ e.2 ∧ 0 ≤ e.1 ∧ e.1 + e.2 ≤ delay3.Length)
      ∧ (tr.map Prod.snd).sum = ((7 : ℕ) : ℤ)
      ∧ ∀ q : ℕ, delay3.Length ≤ (q : ℤ) → r.1.Buffer q = delay3.Buffer q :=
  (WorkTrack_bounded delay3 ramp zeroMem 7 WM_READWRITE (by decide) (by decide)).1

/-! ## The control tick: unset and real values -/

/-- C12. A control tick in which every field carries its unset sentinel changes
nothing: on a track with `Length ≤ MaxDelay` and `Pos < Length`, `TickTrack` with
an all-unset snapshot returns the track as it was (unit, length, cursor,
feedback, wet out, filter type, cutoff, bandwidth, filter coefficients and
history, buffer); and `Tick` with an unset global switch leaves `DryThru` as it
was. -/
theorem unset_tick_changes_nothing (dsp : DspLib) (info : CMasterInfo) (M : ℤ) (pt : CTrack)
    (v : tvals) (decay : ℚ → ℤ → ℤ) (m : mi) (tval : List tvals) (gval : gvals) :
    ((v.length : ℤ) = paraLength.NoValue → (v.unit : ℤ) = paraUnit.NoValue →
        (v.feedback : ℤ) = paraFeedback.NoValue → (v.filtertype : ℤ) = paraFilterType.NoValue →
        (v.filtercutoff : ℤ) = paraFilterCutoff.NoValue →
        (v.filterbw : ℤ) = paraFilterBandwidth.NoValue →
        (v.wetout : ℤ) = paraWetOut.NoValue →
        pt.Length ≤ M → pt.Pos < pt.Length →
        TickTrack dsp info M pt v = pt)
      ∧ ((gval.drythru : ℤ) = paraDryThru.NoValue →
        (Tick dsp info decay m tval gval).DryThru = m.DryThru) := by
  constructor
  · intro hl hu hf ht hc hb hw hM hP
    have e1 : tickFilter dsp pt v = pt := by
      simp [tickFilter, ht, hc, hb]
    have e2 : tickLength info M pt v = pt := by
      have a : ¬ (pt.Length > M) := by omega
      have b : ¬ (pt.Pos ≥ pt.Length) := by omega
      simp [tickLength, hl, hu, a, b]
    have e3 : tickGains pt v = pt := by
      simp [tickGains, hf, hw]
    rw [TickTrack, e1, e2, e3]
  · intro hg
    have hs : gval.drythru = SWITCH_NO := by
      have : (gval.drythru : ℤ) = (SWITCH_NO : ℤ) := hg
      exact_mod_cast this
    simp [Tick, hs]

theorem unset_tick_changes_nothing_witness :
    TickTrack idDsp host512 44100 track0 noVals = track0 :=
  (unset_tick_changes_nothing idDsp host512 44100 track0 noVals (fun _ _ => 0) engine0
    [noVals] ⟨SWITCH_NO⟩).1 rfl rfl rfl rfl rfl rfl rfl (by decide) (by decide)

/-- C13, the failing run: 255 lies in the declared range `[10, 20000]` of the
cutoff and `[1, 10000]` of the bandwidth, yet a tick carrying the cutoff 255 and
the bandwidth 255 leaves `FilterCutoff = 1000` and `FilterBandwidth = 1000` as they
were: 255 is the `NoValue` declared for both. -/
theorem cutoff_255_is_not_applied :
    paraFilterCutoff.MinValue ≤ 255 ∧ 255 ≤ paraFilterCutoff.MaxValue
      ∧ paraFilterBandwidth.MinValue ≤ 255 ∧ 255 ≤ paraFilterBandwidth.MaxValue
      ∧ noVals.filtercutoff = 255 ∧ noVals.filterbw = 255
      ∧ (TickTrack idDsp host512 44100 track0 noVals).FilterCutoff = 1000
      ∧ (TickTrack idDsp host512 44100 track0 noVals).FilterBandwidth = 1000 := by
  have e : TickTrack idDsp host512 44100 track0 noVals = track0 := by
    have e1 : tickFilter idDsp track0 noVals = track0 := by
      simp [tickFilter, noVals, paraFilterType, paraFilterCutoff, paraFilterBandwidth]
    have e2 : tickLength host512 44100 track0 noVals = track0 := by
      simp [tickLength, noVals, paraLength, paraUnit, track0]
    have e3 : tickGains track0 noVals = track0 := by
      simp [tickGains, noVals, paraFeedback, paraWetOut]
    rw [TickTrack, e1, e2, e3]
  refine ⟨by decide, by decide, by decide, by decide, rfl, rfl, ?_, ?_⟩
  · rw [e]; rfl
  · rw [e]; rfl

theorem SetFilter_shape (dsp : DspLib) (t : CTrack) :
    (SetFilter dsp t).FilterType = t.FilterType
      ∧ (SetFilter dsp t).FilterCutoff = t.FilterCutoff
      ∧ (SetFilter dsp t).FilterBandwidth = t.FilterBandwidth := by
  simp only [SetFilter]
  split_ifs <;> exact ⟨rfl, rfl, rfl⟩

theorem lengthFromUnit_shape (info : CMasterInfo) (t : CTrack) (l : ℕ) :
    (lengthFromUnit info t l).FilterType = t.FilterType
      ∧ (lengthFromUnit info t l).FilterCutoff = t.FilterCutoff
      ∧ (lengthFromUnit info t l).FilterBandwidth = t.FilterBandwidth
      ∧ (lengthFromUnit info t l).Filter = t.Filter := by
  simp only [lengthFromUnit]
  split_ifs <;> exact ⟨rfl, rfl, rfl, rfl⟩

theorem tickLength_shape (info : CMasterInfo) (M : ℤ) (t : CTrack) (v : tvals) :
    (tickLength info M t v).FilterType = t.FilterType
      ∧ (tickLength info M t v).FilterCutoff = t.FilterCutoff
      ∧ (tickLength info M t v).FilterBandwidth = t.FilterBandwidth
      ∧ (tickLength info M t v).Filter = t.Filter := by
  have h := lengthFromUnit_shape info
  unfold tickLength
  by_cases hu : (v.unit : ℤ) ≠ paraUnit.NoValue <;>
  by_cases hl : (v.length : ℤ) ≠ paraLength.NoValue <;>
  simp only [hu, hl, if_true, if_false] <;>
  split_ifs <;>
  first
    | exact ⟨rfl, rfl, rfl, rfl⟩
    | exact h _ _

theorem tickGains_shape (t : CTrack) (v : tvals) :
    (tickGains t v).FilterType = t.FilterType
      ∧ (tickGains t v).FilterCutoff = t.FilterCutoff
      ∧ (tickGains t v).FilterBandwidth = t.FilterBandwidth
      ∧ (tickGains t v).Filter = t.Filter ∧ (tickGains t v).Unit = t.Unit := by
  simp only [tickGains]
  split_ifs <;> exact ⟨rfl, rfl, rfl, rfl, rfl⟩

/-- A cutoff or bandwidth other than 255 is applied by the tick that carries it. -/
theorem TickTrack_applies_cutoff_and_bandwidth (dsp : DspLib) (info : CMasterInfo) (M : ℤ)
    (pt : CTrack) (v : tvals) :
    ((v.filtercutoff : ℤ) ≠ paraFilterCutoff.NoValue →
        (TickTrack dsp info M pt v).FilterCutoff = (v.filtercutoff : ℤ))
      ∧ ((v.filterbw : ℤ) ≠ paraFilterBandwidth.NoValue →
        (TickTrack dsp info M pt v).FilterBandwidth = (v.filterbw : ℤ)) := by
  have hg := tickGains_shape (tickLength info M (tickFilter dsp pt v) v) v
  have hl := tickLength_shape info M (tickFilter dsp pt v) v
  constructor
  · intro hc
    have hc1 : ¬ ((v.filtercutoff : ℤ) = paraFilterCutoff.NoValue) := hc
    rw [TickTrack, hg.2.1, hl.2.1]
    unfold tickFilter
    by_cases h1 : (v.filtertype : ℤ) = paraFilterType.NoValue <;>
    by_cases h3 : (v.filterbw : ℤ) = paraFilterBandwidth.NoValue <;>
    simp only [h1, hc1, h3, ne_eq, not_true_eq_false, not_false_eq_true, ↓reduceIte] <;>
    exact (SetFilter_shape dsp _).2.1
  · intro hb
    have hb1 : ¬ ((v.filterbw : ℤ) = paraFilterBandwidth.NoValue) := hb
    rw [TickTrack, hg.2.2.1, hl.2.2.1]
    unfold tickFilter
    by_cases h1 : (v.filtertype : ℤ) = paraFilterType.NoValue <;>
    by_cases h2 : (v.filtercutoff : ℤ) = paraFilterCutoff.NoValue <;>
    simp only [h1, h2, hb1, ne_eq, not_true_eq_false, not_false_eq_true, ↓reduceIte] <;>
    exact (SetFilter_shape dsp _).2.2

/-! ## The unit without a length -/

/-- C14, amended. A tick that carries a unit `u2` and an unset length does not
reinterpret any earlier raw length: `Unit` becomes `u2` and `Length` stays what it
was, only capped at `MaxDelay`; the new unit is applied by the next tick that
carries a length. -/
theorem unit_alone_keeps_Length (dsp : DspLib) (info : CMasterInfo) (M : ℤ) (pt : CTrack)
    (v : tvals) (hu : (v.unit : ℤ) ≠ paraUnit.NoValue)
    (hl : (v.length : ℤ) = paraLength.NoValue) :
    (TickTrack dsp info M pt v).Unit = (v.unit : ℤ)
      ∧ (TickTrack dsp info M pt v).Length = min pt.Length M := by
  have hg := tickGains_shape (tickLength info M (tickFilter dsp pt v) v) v
  constructor
  · rw [TickTrack, hg.2.2.2.2]
    unfold tickLength
    simp only [hu, hl, ne_eq, not_true_eq_false, not_false_eq_true, ↓reduceIte]
    split_ifs <;> rfl
  · rw [TickTrack, tickGains_Length]
    unfold tickLength
    simp only [hl, ne_eq, not_true_eq_false, ↓reduceIte]
    rw [reset_Length, capped_Length]
    split_ifs
    · show (tickFilter dsp pt v).Length ⊓ M = pt.Length ⊓ M
      rw [tickFilter_Length]
    · rw [tickFilter_Length]

theorem unit_alone_keeps_Length_witness :
    (TickTrack idDsp host512 44100 track0 unitOnly).Unit = (unitOnly.unit : ℤ)
      ∧ (TickTrack idDsp host512 44100 track0 unitOnly).Length = min track0.Length 44100 :=
  unit_alone_keeps_Length idDsp host512 44100 track0 unitOnly (by decide) rfl

/-- C14, as stated, fails: at 512 samples per tick a tick carrying the raw length 1
under unit tick sets `Length = 512`; a later tick carrying the unit "sample" and an
unset length leaves `Length = 512`, whereas a tick carrying both the unit "sample"
and the length 1 gives `Length = 1`. -/
theorem unit_alone_does_not_reinterpret :
    (TickTrack idDsp host512 44100 track0 oneTick).Length = 512
      ∧ (TickTrack idDsp host512 44100 (TickTrack idDsp host512 44100 track0 oneTick)
          unitOnly).Length = 512
      ∧ (TickTrack idDsp host512 44100 (TickTrack idDsp host512 44100 track0 oneTick)
          unitAndLength).Length = 1 := by
  have e1 : (TickTrack idDsp host512 44100 track0 oneTick).Length = 512 := by
    rw [TickTrack_Length idDsp host512 44100 track0 oneTick (by decide)]; decide
  refine ⟨e1, ?_, ?_⟩
  · have hg := tickGains_Length
      (tickLength host512 44100
        (tickFilter idDsp (TickTrack idDsp host512 44100 track0 oneTick) unitOnly) unitOnly)
      unitOnly
    rw [TickTrack, hg]
    unfold tickLength
    have hl : (unitOnly.length : ℤ) = paraLength.NoValue := rfl
    simp only [hl, ne_eq, not_true_eq_false, ↓reduceIte]
    rw [reset_Length, capped_Length]
    have e2 : ∀ t : CTrack, t.Length = 512 → min t.Length (44100 : ℤ) = 512 := by
      intro t ht; rw [ht]; decide
    split_ifs
    · exact e2 _ (by show (tickFilter idDsp _ unitOnly).Length = 512
                     rw [tickFilter_Length]; exact e1)
    · exact e2 _ (by rw [tickFilter_Length]; exact e1)
  · rw [TickTrack_Length idDsp host512 44100 _ unitAndLength (by decide)]
    decide

/-! ## (Re)allocation -/

theorem onRange_get (f : CTrack → CTrack) (lo hi : ℕ) (ts : List CTrack) :
    ∀ (i c : ℕ) (t u : CTrack), ts[c]? = some t → (onRange f lo hi i ts)[c]? = some u →
    u = if lo ≤ i + c ∧ i + c < hi then f t else t := by
  induction ts with
  | nil => intro i c t u ht; simp at ht
  | cons a ts ih =>
    intro i c t u ht hu
    rw [onRange] at hu
    cases c with
    | zero =>
      simp only [List.getElem?_cons_zero, Option.some.injEq] at ht hu
      subst ht
      rw [← hu]
      rfl
    | succ c =>
      simp only [List.getElem?_cons_succ] at ht hu
      have := ih (i + 1) c t u ht hu
      rw [this]
      have e : i + 1 + c = i + (c + 1) := by omega
      rw [e]

theorem InitTrack_Filter (M : ℤ) (t : CTrack) : (InitTrack M t).Filter = t.Filter := by
  simp only [InitTrack]
  split_ifs <;> rfl

/-- C15, amended. `InitTrack` gives the track a zero-filled buffer and `Pos = 0`
and leaves the filter state alone: after `InitTrack`, and therefore after
`AttributesChanged` and after `SetNumTracks` for every track, the filter
coefficients and the history `i[0]`, `i[1]`, `o[0]`, `o[1]` are what they were before
the call. -/
theorem InitTrack_keeps_filter_state (M : ℤ) (pt : CTrack) (info : CMasterInfo)
    (aval : avals) (m : mi) (n : ℕ) :
    ((InitTrack M pt).Filter = pt.Filter ∧ (InitTrack M pt).Buffer = zeroMem
        ∧ (InitTrack M pt).Pos = 0)
      ∧ (∀ (c : ℕ) (t u : CTrack), m.Tracks[c]? = some t →
          (AttributesChanged info aval m).Tracks[c]? = some u → u.Filter = t.Filter)
      ∧ (∀ (c : ℕ) (t u : CTrack), m.Tracks[c]? = some t →
          (SetNumTracks m n).Tracks[c]? = some u → u.Filter = t.Filter) := by
  refine ⟨⟨InitTrack_Filter M pt, ?_, ?_⟩, ?_, ?_⟩
  · simp only [InitTrack]; split_ifs <;> rfl
  · simp only [InitTrack]; split_ifs <;> rfl
  · intro c t u ht hu
    have := onRange_get _ _ _ _ 0 c t u ht hu
    rw [this]
    split_ifs
    · exact InitTrack_Filter _ t
    · rfl
  · intro c t u ht hu
    simp only [SetNumTracks] at hu
    split_ifs at hu with h1 h2
    · have := onRange_get _ _ _ _ 0 c t u ht hu
      rw [this]
      split_ifs
      · exact InitTrack_Filter _ t
      · rfl
    · have := onRange_get _ _ _ _ 0 c t u ht hu
      rw [this]
      split_ifs <;> rfl
    · rw [ht] at hu
      simp only [Option.some.injEq] at hu
      rw [hu]

theorem InitTrack_keeps_filter_state_witness :
    (InitTrack 44100 ringTrack).Filter = ringTrack.Filter :=
  (InitTrack_keeps_filter_state 44100 ringTrack host512 ⟨1000⟩
    { engine0 with Tracks := [track0, ringTrack] } 2).2.2 1 ringTrack
    (InitTrack 44100 ringTrack) rfl rfl

/-- C15, as stated, fails: `InitTrack` on `ringTrack`, whose filter history has
`i[0] = 1`, returns a track whose history still has `i[0] = 1`. -/
theorem InitTrack_leaves_history :
    ringTrack.Filter.i0 = 1 ∧ (InitTrack 44100 ringTrack).Filter.i0 = 1 := by
  refine ⟨rfl, ?_⟩
  rw [InitTrack_Filter]
  rfl

/-! ## The capacity -/

/-- C16, amended. `AttributesChanged` applies no clamp: `MaxDelay` is the `(int)`
conversion of the `double` expression `SamplesPerSec * (maxdelay / 1000.0)`. For
every positive sample rate and max-delay attribute with
`SamplesPerSec * maxdelay ≥ 1000` (and `SamplesPerSec * maxdelay / 1000` below
`2^31`), `MaxDelay ≥ 1` afterwards, and `MaxDelay` is the integer truncation of
`SamplesPerSec * maxdelay / 1000` or one less. -/
theorem AttributesChanged_MaxDelay (info : CMasterInfo) (aval : avals) (m : mi)
    (hs : 0 < info.SamplesPerSec)
    (hp : 1000 ≤ info.SamplesPerSec * aval.maxdelay)
    (hr : info.SamplesPerSec * aval.maxdelay < 2147483648 * 1000) :
    1 ≤ (AttributesChanged info aval m).MaxDelay
      ∧ info.SamplesPerSec * aval.maxdelay / 1000 - 1 ≤ (AttributesChanged info aval m).MaxDelay
      ∧ (AttributesChanged info aval m).MaxDelay ≤ info.SamplesPerSec * aval.maxdelay / 1000 := by
  have hm : 0 < aval.maxdelay := by
    by_contra hc
    have : info.SamplesPerSec * aval.maxdelay ≤ 0 :=
      Int.mul_nonpos_of_nonneg_of_nonpos hs.le (by omega)
    omega
  have e : (AttributesChanged info aval m).MaxDelay
      = cvtInt (dmul (info.SamplesPerSec : ℚ) (ddiv (aval.maxdelay : ℚ) 1000)) := rfl
  rw [e]
  have hb := ms_floor_bounds info.SamplesPerSec aval.maxdelay hs hm hr
  exact ⟨ms_ge_one info.SamplesPerSec aval.maxdelay hs hp hr, hb.2.1, hb.2.2⟩

theorem AttributesChanged_MaxDelay_witness :
    1 ≤ (AttributesChanged host512 ⟨1000⟩ engine0).MaxDelay
      ∧ host512.SamplesPerSec * (⟨1000⟩ : avals).maxdelay / 1000 - 1
          ≤ (AttributesChanged host512 ⟨1000⟩ engine0).MaxDelay
      ∧ (AttributesChanged host512 ⟨1000⟩ engine0).MaxDelay
          ≤ host512.SamplesPerSec * (⟨1000⟩ : avals).maxdelay / 1000 :=
  AttributesChanged_MaxDelay host512 ⟨1000⟩ engine0 (by decide) (by decide) (by decide)

/-- C16, as stated, fails: at the positive sample rate 500 and the max-delay
attribute 1 ms, inside its declared range `[1, 100000]`, `AttributesChanged` leaves
`MaxDelay = 0`; and at 44100 Hz and 350 ms it leaves `MaxDelay = 15434`, which is
not the integer truncation 15435 of `44100 * 350 / 1000`. -/
theorem AttributesChanged_MaxDelay_zero :
    0 < host500.SamplesPerSec ∧ attrMaxDelay.MinValue ≤ 1 ∧ 1 ≤ attrMaxDelay.MaxValue
      ∧ (AttributesChanged host500 ⟨1⟩ engine0).MaxDelay = 0
      ∧ attrMaxDelay.MinValue ≤ 350 ∧ 350 ≤ attrMaxDelay.MaxValue
      ∧ (AttributesChanged host512 ⟨350⟩ engine0).MaxDelay = 15434
      ∧ host512.SamplesPerSec * (⟨350⟩ : avals).maxdelay / 1000 = 15435 := by
  refine ⟨by decide, by decide, by decide, ?_, by decide, by decide, ?_, by decide⟩
  · exact ms_1_at_500
  · exact ms_350_at_44100

end Ninja
